import Mathlib

/-!
Verification of the model-response sanitation and typed-decoding pipeline of
ProfessorAI (src/services/geminiService.ts).

Strings are modelled as `List Char`.  The JavaScript regular-expression
rewrites of `cleanJson` are modelled by explicit left-to-right scanners with
the exact greedy semantics of the two patterns used by the source
(global replace, leftmost match, continuation after the end of each match,
replacement text never rescanned).  `JSON.parse` (an ECMAScript built-in,
not repository code) is modelled by an executable recursive-descent
decoder over the JSON grammar, with numbers read as exact rationals;
IEEE-754 artifacts of the host are abstracted into exact rational
arithmetic, and `Math.round` is modelled by its ECMAScript specification
(round to nearest, ties toward positive infinity).
-/

-- ---------------------------------------------------------------------------
-- Basic character utilities
-- ---------------------------------------------------------------------------

-- Whitespace stripped by JavaScript String.prototype.trim (ECMAScript
-- TrimString: tab, LF, VT, FF, CR, space, NBSP, BOM, and the Unicode
-- space separators).
def isTrimWsChar (c : Char) : Bool :=
  (c == ' ') || (c == '\t') || (c == '\n') || (c == '\r') ||
  (c == '\x0b') || (c == '\x0c') || (c == '\u00A0') || (c == '\uFEFF') ||
  (c == '\u1680') || ('\u2000' ≤ c && c ≤ '\u200A') || (c == '\u2028') ||
  (c == '\u2029') || (c == '\u202F') || (c == '\u205F') || (c == '\u3000')

-- Whitespace accepted between tokens by JSON.parse (the JSON grammar).
def isJsonWsChar (c : Char) : Bool :=
  (c == ' ') || (c == '\t') || (c == '\n') || (c == '\r')

def trimChars (l : List Char) : List Char :=
  ((l.dropWhile isTrimWsChar).reverse.dropWhile isTrimWsChar).reverse

-- `leadsWith pat l` holds when `pat` is an initial segment of `l`.
def leadsWith : List Char → List Char → Bool
  | [], _ => true
  | _ :: _, [] => false
  | p :: ps, c :: cs => p == c && leadsWith ps cs

-- Index of the first occurrence of a character (String.prototype.indexOf,
-- with `none` standing for the JavaScript sentinel -1).
def firstIdx (c : Char) : List Char → Option Nat
  | [] => none
  | x :: xs => if x == c then some 0 else (firstIdx c xs).map (· + 1)

-- Index of the last occurrence of a character (String.prototype.lastIndexOf).
def lastIdx (c : Char) (l : List Char) : Option Nat :=
  (firstIdx c l.reverse).map (fun i => l.length - 1 - i)

-- ---------------------------------------------------------------------------
-- Global literal replacement by the empty string
-- (text.replace(/lit/g, "") for a literal pattern): scan left to right,
-- skip past each occurrence, never rescan emitted output.
-- ---------------------------------------------------------------------------

def removeAllGo : Nat → List Char → List Char → List Char
  | _, _, [] => []
  | 0, _, l => l
  | fuel + 1, pat, c :: t =>
    if !pat.isEmpty && leadsWith pat (c :: t) then
      removeAllGo fuel pat ((c :: t).drop pat.length)
    else
      c :: removeAllGo fuel pat t

def removeAll (pat l : List Char) : List Char := removeAllGo l.length pat l

-- cleanJson line 223: strip every "```json" marker, then every "```" marker.
def stripFences (text : List Char) : List Char :=
  removeAll ("```".toList) (removeAll ("```json".toList) text)

-- cleanJson lines 226-231: take the span from the first '{' to the last '}'
-- when both exist and the last follows the first; otherwise keep the text.
def braceSpan (l : List Char) : List Char :=
  match firstIdx '{' l, lastIdx '}' l with
  | some i, some j => if i < j then (l.drop i).take (j + 1 - i) else l
  | _, _ => l

-- ---------------------------------------------------------------------------
-- Numeric precision normalization, stage 1
-- (cleanJson line 236: cleaned.replace(/(\d+\.\d{6})\d+/g, '$1')).
-- A match at the head of `l` is a maximal digit run, a dot, and a maximal
-- digit run of length at least 7; the replacement keeps the integer part,
-- the dot and the first 6 fractional digits.
-- ---------------------------------------------------------------------------

def matchTrunc (l : List Char) : Option (List Char × List Char) :=
  let d1 := l.takeWhile Char.isDigit
  if d1.isEmpty then none
  else
    let r1 := l.dropWhile Char.isDigit
    if r1.head? = some '.' then
      let r2 := r1.tail
      let d2 := r2.takeWhile Char.isDigit
      if 6 < d2.length then
        some (d1 ++ '.' :: d2.take 6, r2.dropWhile Char.isDigit)
      else none
    else none

def scanTrunc : Nat → List Char → List Char
  | _, [] => []
  | 0, l => l
  | fuel + 1, c :: t =>
    match matchTrunc (c :: t) with
    | some (k, r) => k ++ scanTrunc fuel r
    | none => c :: scanTrunc fuel t

def truncFrac6 (l : List Char) : List Char := scanTrunc l.length l

-- ---------------------------------------------------------------------------
-- Numeric precision normalization, stage 2
-- (cleanJson lines 240-246: cleaned.replace(/(\d+\.\d+)[eE][+-]?\d+/g, f)
-- where f keeps numberPart.substring(0, dotIndex + 3), i.e. the mantissa
-- reduced to at most two fractional digits, and drops the exponent).
-- ---------------------------------------------------------------------------

def matchSci (l : List Char) : Option (List Char × List Char) :=
  let d1 := l.takeWhile Char.isDigit
  if d1.isEmpty then none
  else
    let r1 := l.dropWhile Char.isDigit
    if r1.head? = some '.' then
      let r2 := r1.tail
      let d2 := r2.takeWhile Char.isDigit
      if d2.isEmpty then none
      else
        let r3 := r2.dropWhile Char.isDigit
        if r3.head? = some 'e' ∨ r3.head? = some 'E' then
          let r4 :=
            if r3.tail.head? = some '+' ∨ r3.tail.head? = some '-' then
              r3.tail.tail
            else r3.tail
          if (r4.takeWhile Char.isDigit).isEmpty then none
          else some (d1 ++ '.' :: d2.take 2, r4.dropWhile Char.isDigit)
        else none
    else none

def scanSci : Nat → List Char → List Char
  | _, [] => []
  | 0, l => l
  | fuel + 1, c :: t =>
    match matchSci (c :: t) with
    | some (k, r) => k ++ scanSci fuel r
    | none => c :: scanSci fuel t

def fixSci (l : List Char) : List Char := scanSci l.length l

-- The two textual rewrites of cleanJson, in source order.
def normNumeric (l : List Char) : List Char := fixSci (truncFrac6 l)

-- cleanJson (src/services/geminiService.ts lines 221-249).
def cleanJson (text : List Char) : List Char :=
  trimChars (normNumeric (braceSpan (stripFences text)))

-- ---------------------------------------------------------------------------
-- The rounding reviver (src/services/geminiService.ts lines 252-257):
-- Math.round(value * 100) / 100 on every numeric value met during parsing.
-- Math.round is ECMAScript round-to-nearest with ties toward +infinity,
-- i.e. the floor of the argument plus one half.
-- ---------------------------------------------------------------------------

def jsMathRound (x : ℚ) : ℤ := ⌊x + 1 / 2⌋

def jsRound2 (q : ℚ) : ℚ := ((jsMathRound (q * 100) : ℤ) : ℚ) / 100

-- Rounding described by the specification: round-half-away-from-zero on the
-- value times 100, then divide by 100 (spec section 4.4).  Modelled from the
-- spec for comparison with the implementation's Math.round-based rounding.
def awayRound (x : ℚ) : ℤ := if 0 ≤ x then ⌊x + 1 / 2⌋ else -⌊-x + 1 / 2⌋

def specRound2 (q : ℚ) : ℚ := ((awayRound (q * 100) : ℤ) : ℚ) / 100

-- ---------------------------------------------------------------------------
-- JSON values (the tree materialized by JSON.parse).  Arrays and objects are
-- separate mutual types so that all traversals are plain structural
-- recursions.  Object fields are kept in source order.
-- ---------------------------------------------------------------------------

mutual
inductive Json where
  | jnull
  | jbool (b : Bool)
  | jnum (q : ℚ)
  | jstr (s : List Char)
  | jarr (elems : JsonArr)
  | jobj (fields : JsonObj)
inductive JsonArr where
  | anil
  | acons (hd : Json) (tl : JsonArr)
inductive JsonObj where
  | onil
  | ocons (key : List Char) (val : Json) (tl : JsonObj)
end

-- The reviver function itself (applied by JSON.parse to every materialized
-- value; the key argument plays no role in the source and is omitted).
def jsonReviver (v : Json) : Json :=
  match v with
  | .jnum q => .jnum (jsRound2 q)
  | v => v

mutual
-- JSON.parse applies the reviver bottom-up to every node of the tree.
def reviveTree : Json → Json
  | .jnull => jsonReviver .jnull
  | .jbool b => jsonReviver (.jbool b)
  | .jnum q => jsonReviver (.jnum q)
  | .jstr s => jsonReviver (.jstr s)
  | .jarr es => jsonReviver (.jarr (reviveArr es))
  | .jobj fs => jsonReviver (.jobj (reviveObj fs))
def reviveArr : JsonArr → JsonArr
  | .anil => .anil
  | .acons v tl => .acons (reviveTree v) (reviveArr tl)
def reviveObj : JsonObj → JsonObj
  | .onil => .onil
  | .ocons k v tl => .ocons k (reviveTree v) (reviveObj tl)
end

mutual
-- Modelled from the spec (section 4.4): while materializing the tree, every
-- leaf of numeric type is rounded; non-numeric leaves and the structural
-- shape are untouched.  Stated as a pure numeric-leaf map, for comparison
-- with the implementation's reviver traversal.
def mapNumLeaves : Json → Json
  | .jnull => .jnull
  | .jbool b => .jbool b
  | .jnum q => .jnum (jsRound2 q)
  | .jstr s => .jstr s
  | .jarr es => .jarr (mapNumArr es)
  | .jobj fs => .jobj (mapNumObj fs)
def mapNumArr : JsonArr → JsonArr
  | .anil => .anil
  | .acons v tl => .acons (mapNumLeaves v) (mapNumArr tl)
def mapNumObj : JsonObj → JsonObj
  | .onil => .onil
  | .ocons k v tl => .ocons k (mapNumLeaves v) (mapNumObj tl)
end

-- ---------------------------------------------------------------------------
-- JSON.parse, modelled as an executable recursive-descent reader of the
-- JSON grammar (ECMA-404).  Failures carry a short diagnostic, standing for
-- the SyntaxError detail of the host parser.
-- ---------------------------------------------------------------------------

def skipWs (l : List Char) : List Char := l.dropWhile isJsonWsChar

def hexVal (c : Char) : Option Nat :=
  if '0' ≤ c ∧ c ≤ '9' then some (c.toNat - 48)
  else if 'a' ≤ c ∧ c ≤ 'f' then some (c.toNat - 87)
  else if 'A' ≤ c ∧ c ≤ 'F' then some (c.toNat - 55)
  else none

-- Body of a JSON string literal, after the opening quote.
def parseStrBody : Nat → List Char → Option (List Char × List Char)
  | 0, _ => none
  | _, [] => none
  | fuel + 1, c :: r =>
    if c == '"' then some ([], r)
    else if c == '\\' then
      match r with
      | [] => none
      | e :: r2 =>
        if e == '"' then (parseStrBody fuel r2).map (fun p => ('"' :: p.1, p.2))
        else if e == '\\' then (parseStrBody fuel r2).map (fun p => ('\\' :: p.1, p.2))
        else if e == '/' then (parseStrBody fuel r2).map (fun p => ('/' :: p.1, p.2))
        else if e == 'b' then (parseStrBody fuel r2).map (fun p => ('\x08' :: p.1, p.2))
        else if e == 'f' then (parseStrBody fuel r2).map (fun p => ('\x0c' :: p.1, p.2))
        else if e == 'n' then (parseStrBody fuel r2).map (fun p => ('\n' :: p.1, p.2))
        else if e == 'r' then (parseStrBody fuel r2).map (fun p => ('\r' :: p.1, p.2))
        else if e == 't' then (parseStrBody fuel r2).map (fun p => ('\t' :: p.1, p.2))
        else if e == 'u' then
          match r2 with
          | h1 :: h2 :: h3 :: h4 :: r3 =>
            match hexVal h1, hexVal h2, hexVal h3, hexVal h4 with
            | some a, some b, some c2, some d =>
              (parseStrBody fuel r3).map
                (fun p => (Char.ofNat (((a * 16 + b) * 16 + c2) * 16 + d) :: p.1, p.2))
            | _, _, _, _ => none
          | _ => none
        else none
    else if c.toNat < 32 then none
    else (parseStrBody fuel r).map (fun p => (c :: p.1, p.2))

def digitsVal (l : List Char) : Nat := l.foldl (fun n c => 10 * n + (c.toNat - 48)) 0

def pow10 : ℤ → ℚ
  | .ofNat n => ((10 ^ n : ℕ) : ℚ)
  | .negSucc n => 1 / ((10 ^ (n + 1) : ℕ) : ℚ)

-- Optional fractional part of a JSON number, starting at the residue after
-- the integer digits.
def parseFracPart (r1 : List Char) : Option (List Char × List Char) :=
  if r1.head? = some '.' then
    let rf := r1.tail
    let d := rf.takeWhile Char.isDigit
    if d.isEmpty then none else some (d, rf.dropWhile Char.isDigit)
  else some ([], r1)

-- Optional exponent part of a JSON number.
def parseExpPart (r2 : List Char) : Option (ℤ × List Char) :=
  if r2.head? = some 'e' ∨ r2.head? = some 'E' then
    let r3 := r2.tail
    let esign : Bool := r3.head? = some '-'
    let r4 : List Char :=
      if r3.head? = some '-' ∨ r3.head? = some '+' then r3.tail else r3
    let d := r4.takeWhile Char.isDigit
    if d.isEmpty then none
    else some ((if esign then -(digitsVal d : ℤ) else (digitsVal d : ℤ)),
               r4.dropWhile Char.isDigit)
  else some (0, r2)

-- Unsigned part of a JSON number: integer part without leading zeros,
-- optional fraction, optional exponent; the value is exact.
def parseNumMag (l1 : List Char) : Option (ℚ × List Char) :=
  let dInt := l1.takeWhile Char.isDigit
  if dInt.isEmpty then none
  else if dInt.length ≠ 1 ∧ dInt.head? = some '0' then none
  else
    match parseFracPart (l1.dropWhile Char.isDigit) with
    | none => none
    | some (dFrac, r2) =>
      match parseExpPart r2 with
      | none => none
      | some (ex, r3) =>
        some (((digitsVal dInt : ℚ) +
          (digitsVal dFrac : ℚ) / ((10 ^ dFrac.length : ℕ) : ℚ)) * pow10 ex, r3)

-- A JSON number: optional minus then the unsigned part.
def parseNumber (l : List Char) : Option (ℚ × List Char) :=
  let neg : Bool := l.head? = some '-'
  let l1 : List Char := if l.head? = some '-' then l.tail else l
  match parseNumMag l1 with
  | none => none
  | some (mag, r3) => some ((if neg then -mag else mag), r3)

mutual
def parseValue : Nat → List Char → Option (Json × List Char)
  | 0, _ => none
  | fuel + 1, l0 =>
    match skipWs l0 with
    | [] => none
    | c :: t =>
      if c == '{' then
        match skipWs t with
        | '}' :: r => some (.jobj .onil, r)
        | t2 => parseMembers fuel t2
      else if c == '[' then
        match skipWs t with
        | ']' :: r => some (.jarr .anil, r)
        | t2 => parseElems fuel t2
      else if c == '"' then
        match parseStrBody (t.length + 1) t with
        | some (s, r) => some (.jstr s, r)
        | none => none
      else if c == 't' then
        if leadsWith ("rue".toList) t then some (.jbool true, t.drop 3) else none
      else if c == 'f' then
        if leadsWith ("alse".toList) t then some (.jbool false, t.drop 4) else none
      else if c == 'n' then
        if leadsWith ("ull".toList) t then some (.jnull, t.drop 3) else none
      else if c == '-' || c.isDigit then
        match parseNumber (c :: t) with
        | some (q, r) => some (.jnum q, r)
        | none => none
      else none
def parseMembers : Nat → List Char → Option (Json × List Char)
  | 0, _ => none
  | fuel + 1, l =>
    match skipWs l with
    | '"' :: t =>
      match parseStrBody (t.length + 1) t with
      | some (key, r1) =>
        match skipWs r1 with
        | ':' :: r2 =>
          match parseValue fuel r2 with
          | some (v, r3) =>
            match skipWs r3 with
            | ',' :: r4 =>
              match parseMembers fuel r4 with
              | some (.jobj fs, r5) => some (.jobj (.ocons key v fs), r5)
              | _ => none
            | '}' :: r4 => some (.jobj (.ocons key v .onil), r4)
            | _ => none
          | none => none
        | _ => none
      | none => none
    | _ => none
def parseElems : Nat → List Char → Option (Json × List Char)
  | 0, _ => none
  | fuel + 1, l =>
    match parseValue fuel l with
    | some (v, r1) =>
      match skipWs r1 with
      | ',' :: r2 =>
        match parseElems fuel r2 with
        | some (.jarr vs, r3) => some (.jarr (.acons v vs), r3)
        | _ => none
      | ']' :: r2 => some (.jarr (.acons v .anil), r2)
      | _ => none
    | none => none
end

-- JSON.parse on a whole text: one value, surrounded only by whitespace.
-- On failure the error message stands for the SyntaxError detail.
def parseJson (l : List Char) : Except (List Char) Json :=
  match parseValue (l.length + 1) l with
  | some (v, r) =>
    if (skipWs r).isEmpty then .ok v
    else .error ("Unexpected non-whitespace character after JSON".toList)
  | none => .error ("Unexpected token in JSON".toList)

-- ---------------------------------------------------------------------------
-- Operation-level decode paths.  Each operation is modelled from the point
-- where the model response is available: the upstream call itself is an
-- external collaborator, so its outcome (a possibly missing response text)
-- is the input of the model.  JavaScript treats both an absent and an empty
-- response text as falsy, so `none` and `some []` both take the
-- empty-response branch.
-- ---------------------------------------------------------------------------

structure DecodeFailure where
  raw : List Char
  detail : List Char
  message : List Char
deriving DecidableEq

inductive OpFailure where
  | emptyResponse (message : List Char)
  | decodeFailure (f : DecodeFailure)
deriving DecidableEq

def rubricEmptyMsg : List Char := "No response from Gemini".toList

def rubricParseMsg : List Char :=
  "Failed to parse rubric structure. Please try again.".toList

def evalEmptyMsg : List Char := "No evaluation generated".toList

def evalParseMsg : List Char :=
  ("Failed to parse evaluation result. " ++
   "The model may have been interrupted or produced invalid JSON.").toList

-- generateRubricFromText, response handling (lines 308-317).
def generateRubricFromText (responseText : Option (List Char)) : Except OpFailure Json :=
  match responseText with
  | none => .error (.emptyResponse rubricEmptyMsg)
  | some t =>
    if t.isEmpty then .error (.emptyResponse rubricEmptyMsg)
    else
      match parseJson (cleanJson t) with
      | .ok v => .ok (reviveTree v)
      | .error d => .error (.decodeFailure ⟨t, d, rubricParseMsg⟩)

-- evaluateSubmission, response handling (lines 391-400).
def evaluateSubmission (responseText : Option (List Char)) : Except OpFailure Json :=
  match responseText with
  | none => .error (.emptyResponse evalEmptyMsg)
  | some t =>
    if t.isEmpty then .error (.emptyResponse evalEmptyMsg)
    else
      match parseJson (cleanJson t) with
      | .ok v => .ok (reviveTree v)
      | .error d => .error (.decodeFailure ⟨t, d, evalParseMsg⟩)

-- ---------------------------------------------------------------------------
-- analyzeCodeRepository (lines 434-508): every failure inside the try block
-- (upstream call failure, missing/empty response, JSON.parse error) is
-- caught and converted into a fixed degraded CodeAnalysis record.
-- ---------------------------------------------------------------------------

structure FailedAnalysis where
  repo_url : List Char
  summary : List Char
  implementation_score : ℚ
  max_score : ℚ
  evidence : JsonArr
  status : List Char
  error_message : List Char

inductive CodeAnalysisResult where
  | parsed (v : Json)
  | degraded (r : FailedAnalysis)

-- Outcome of the upstream generateContent call: a thrown error (network,
-- quota, model error) or a response carrying an optional text.
inductive UpstreamOutcome where
  | callFailure (message : List Char)
  | response (text : Option (List Char))

def codeAnalysisEmptyMsg : List Char := "No code analysis response".toList

def codeAnalysisFailSummary : List Char :=
  "Failed to analyze repository due to access restrictions or model error.".toList

def failedAnalysis (repoUrl msg : List Char) : FailedAnalysis :=
  { repo_url := repoUrl
    summary := codeAnalysisFailSummary
    implementation_score := 0
    max_score := 10
    evidence := .anil
    status := "failed".toList
    error_message := msg }

-- The rubric argument only contributes to the outbound prompt (upstream
-- input) and plays no role in the decode path; it is kept for fidelity of
-- the signature.
def analyzeCodeRepository (repoUrl : List Char) (_rubric : Json)
    (outcome : UpstreamOutcome) : CodeAnalysisResult :=
  match outcome with
  | .callFailure msg => .degraded (failedAnalysis repoUrl msg)
  | .response none => .degraded (failedAnalysis repoUrl codeAnalysisEmptyMsg)
  | .response (some t) =>
    if t.isEmpty then .degraded (failedAnalysis repoUrl codeAnalysisEmptyMsg)
    else
      match parseJson (cleanJson t) with
      | .ok v => .parsed (reviveTree v)
      | .error d => .degraded (failedAnalysis repoUrl d)

-- ---------------------------------------------------------------------------
-- transcribeAudioNote (lines 513-524) and checkFacts (lines 529-552).
-- ---------------------------------------------------------------------------

def transcribeAudioNote (responseText : Option (List Char)) : List Char :=
  match responseText with
  | some t => if t.isEmpty then [] else t
  | none => []

structure WebInfo where
  uri : Option (List Char)
  title : Option (List Char)

structure GroundingChunk where
  web : Option WebInfo

structure SourceRef where
  uri : List Char
  title : List Char

structure GroundingResult where
  query : List Char
  sources : List SourceRef
  text : List Char

-- `o || dflt` on an optional string, with the empty string falsy.
def defaultStr (o : Option (List Char)) (dflt : List Char) : List Char :=
  match o with
  | some s => if s.isEmpty then dflt else s
  | none => dflt

def chunkToSource (c : GroundingChunk) : SourceRef :=
  match c.web with
  | some w => ⟨defaultStr w.uri [], defaultStr w.title ("Source".toList)⟩
  | none => ⟨[], "Source".toList⟩

def noInfoMsg : List Char := "No information found.".toList

def checkFacts (query : List Char) (responseText : Option (List Char))
    (chunks : Option (List GroundingChunk)) : GroundingResult :=
  let cs : List GroundingChunk := match chunks with | some cs => cs | none => []
  { query := query
    sources := (cs.map chunkToSource).filter (fun s => !s.uri.isEmpty)
    text := defaultStr responseText noInfoMsg }

-- ---------------------------------------------------------------------------
-- A token view of texts whose digit, dot and exponent characters form
-- well-separated numeric literals, used to state what the two numeric
-- rewrites do to every literal of such a text.
-- ---------------------------------------------------------------------------

structure SciPart where
  e : Char
  sgn : List Char
  ex : List Char

inductive JTok where
  | sep (c : Char)
  | num (neg : Bool) (d1 : List Char) (frac : Option (List Char)) (sci : Option SciPart)

def renderFrac : Option (List Char) → List Char
  | none => []
  | some d2 => '.' :: d2

def renderSci : Option SciPart → List Char
  | none => []
  | some s => s.e :: (s.sgn ++ s.ex)

def renderTok : JTok → List Char
  | .sep c => [c]
  | .num neg d1 frac sci =>
    (if neg then ['-'] else []) ++ d1 ++ renderFrac frac ++ renderSci sci

def renderToks : List JTok → List Char
  | [] => []
  | t :: ts => renderTok t ++ renderToks ts

def allDigits (l : List Char) : Bool := l.all Char.isDigit

-- A separator character can take part in neither rewrite pattern.
def sepOKChar (c : Char) : Bool :=
  !c.isDigit && !(c == '.') && !(c == 'e') && !(c == 'E') && !(c == '+') && !(c == '-')

def wfFrac : Option (List Char) → Bool
  | none => true
  | some d2 => !d2.isEmpty && allDigits d2

def wfSci : Option SciPart → Bool
  | none => true
  | some s => (s.e == 'e' || s.e == 'E') &&
      (s.sgn.isEmpty || s.sgn == ['+'] || s.sgn == ['-']) &&
      !s.ex.isEmpty && allDigits s.ex

def wfTok : JTok → Bool
  | .sep c => sepOKChar c
  | .num _ d1 frac sci => !d1.isEmpty && allDigits d1 && wfFrac frac && wfSci sci

def isNumTok : JTok → Bool
  | .sep _ => false
  | .num _ _ _ _ => true

-- Well-formed token lists: every token well formed, and no two numeric
-- literals adjacent (their renderings would merge into one character run).
def wfToks : List JTok → Bool
  | [] => true
  | [t] => wfTok t
  | t :: t2 :: ts => wfTok t && (!isNumTok t || !isNumTok t2) && wfToks (t2 :: ts)

-- What the decimal-tail truncation does to one token.
def truncTok : JTok → JTok
  | .sep c => .sep c
  | .num neg d1 frac sci =>
    .num neg d1
      (match frac with
       | some d2 => some (if 6 < d2.length then d2.take 6 else d2)
       | none => none) sci

-- What the scientific-notation rewrite does to one token.
def sciTok : JTok → JTok
  | .sep c => .sep c
  | .num neg d1 frac sci =>
    match frac, sci with
    | some d2, some _ => .num neg d1 (some (d2.take 2)) none
    | _, _ => .num neg d1 frac sci

-- ---------------------------------------------------------------------------
-- Further specification-side notions.
-- ---------------------------------------------------------------------------

-- Position of the first occurrence of a character, stated semantically.
def IsFirstOcc (c : Char) (l : List Char) (i : ℕ) : Prop :=
  l.get? i = some c ∧ ∀ k, k < i → l.get? k ≠ some c

-- Position of the last occurrence of a character, stated semantically.
def IsLastOcc (c : Char) (l : List Char) (j : ℕ) : Prop :=
  l.get? j = some c ∧ ∀ k, j < k → k < l.length → l.get? k ≠ some c

-- Characters that may belong to a numeric literal in either rewrite pattern
-- (the dot is deliberately excluded: the rewrites never remove a dot).
def numLitChar (c : Char) : Bool :=
  c.isDigit || (c == 'e') || (c == 'E') || (c == '+') || (c == '-')

-- The decoded numeric leaf produced from one numeric literal: the literal
-- text goes through the numeric normalization, is read back as a JSON
-- number, and the reviver rounding is applied to the resulting value.
def decodeNumLit (l : List Char) : Option ℚ :=
  match parseNumber (normNumeric l) with
  | some (q, r) => if r.isEmpty then some (jsRound2 q) else none
  | none => none

-- Exact value of the numeric literal [-]d1.d2.
def litVal (neg : Bool) (d1 d2 : List Char) : ℚ :=
  (if neg then -1 else 1) *
    ((digitsVal d1 : ℚ) + (digitsVal d2 : ℚ) / ((10 ^ d2.length : ℕ) : ℚ))

-- ===========================================================================
-- Helper lemmas about takeWhile, dropWhile and the two match functions
-- ===========================================================================

theorem dropWhile_head_not {p : Char → Bool} (l : List Char) (a : Char)
    (h : (l.dropWhile p).head? = some a) : p a = false := by
  induction l with
  | nil => simp at h
  | cons c t ih =>
    rw [List.dropWhile_cons] at h
    by_cases hc : p c
    · exact ih (by simpa [hc] using h)
    · rw [if_neg hc] at h
      simp only [List.head?_cons, Option.some.injEq] at h
      subst h
      simpa using hc

theorem takeWhile_digits_append (d w : List Char) (hd : ∀ a ∈ d, Char.isDigit a)
    (hw : ∀ a, w.head? = some a → Char.isDigit a = false) :
    (d ++ w).takeWhile Char.isDigit = d ∧ (d ++ w).dropWhile Char.isDigit = w := by
  induction d with
  | nil =>
    cases w with
    | nil => exact ⟨rfl, rfl⟩
    | cons a t =>
      constructor
      · simp [List.takeWhile_cons, hw a rfl]
      · simp [List.dropWhile_cons, hw a rfl]
  | cons c tl ih =>
    have hc : Char.isDigit c := hd c (by simp)
    have iht := ih (fun a ha => hd a (by simp [ha]))
    constructor
    · simp [List.takeWhile_cons, hc, iht.1]
    · simp [List.dropWhile_cons, hc, iht.2]

theorem head_dot_not_digit : ∀ (x : List Char) (a : Char),
    (('.' :: x) : List Char).head? = some a → Char.isDigit a = false := by
  intro x a ha
  simp only [List.head?_cons, Option.some.injEq] at ha
  subst ha
  rfl

theorem matchTrunc_eval (d1 d2 w : List Char) (hd1 : d1 ≠ [])
    (h1 : ∀ a ∈ d1, Char.isDigit a) (h2 : ∀ a ∈ d2, Char.isDigit a)
    (hw : ∀ a, w.head? = some a → Char.isDigit a = false) :
    matchTrunc (d1 ++ '.' :: (d2 ++ w)) =
      if 6 < d2.length then some (d1 ++ '.' :: d2.take 6, w) else none := by
  obtain ⟨ht, hdp⟩ :=
    takeWhile_digits_append d1 ('.' :: (d2 ++ w)) h1 (head_dot_not_digit (d2 ++ w))
  obtain ⟨ht2, hd2p⟩ := takeWhile_digits_append d2 w h2 hw
  have hne : d1.isEmpty = false := by
    cases d1 with
    | nil => exact absurd rfl hd1
    | cons c cs => rfl
  unfold matchTrunc
  rw [ht, hdp]
  dsimp only [List.head?_cons, List.tail_cons]
  rw [hne, ht2, hd2p]
  simp only [Bool.false_eq_true, if_false, if_true]

theorem matchTrunc_none_head (c : Char) (t : List Char) (h : Char.isDigit c = false) :
    matchTrunc (c :: t) = none := by
  unfold matchTrunc
  simp [List.takeWhile_cons, h]

theorem matchTrunc_digits_stop (d w : List Char) (hd : ∀ a ∈ d, Char.isDigit a)
    (hw : ∀ a, w.head? = some a → Char.isDigit a = false)
    (hw2 : w.head? ≠ some '.') :
    matchTrunc (d ++ w) = none := by
  obtain ⟨ht, hdp⟩ := takeWhile_digits_append d w hd hw
  unfold matchTrunc
  rw [ht, hdp]
  dsimp only
  by_cases he : d.isEmpty = true
  · rw [if_pos he]
  · rw [if_neg he, if_neg hw2]

theorem matchTrunc_some (l k r : List Char) (h : matchTrunc l = some (k, r)) :
    ∃ d1 d2, d1 ≠ [] ∧ (∀ a ∈ d1, Char.isDigit a) ∧ (∀ a ∈ d2, Char.isDigit a) ∧
      6 < d2.length ∧ l = d1 ++ '.' :: (d2 ++ r) ∧ k = d1 ++ '.' :: d2.take 6 ∧
      (∀ a, r.head? = some a → Char.isDigit a = false) := by
  unfold matchTrunc at h
  dsimp only at h
  by_cases he : (l.takeWhile Char.isDigit).isEmpty = true
  · rw [if_pos he] at h; exact absurd h (by simp)
  · rw [if_neg he] at h
    by_cases hdot : (l.dropWhile Char.isDigit).head? = some '.'
    · rw [if_pos hdot] at h
      by_cases h6 : 6 < ((l.dropWhile Char.isDigit).tail.takeWhile Char.isDigit).length
      · rw [if_pos h6] at h
        simp only [Option.some.injEq, Prod.mk.injEq] at h
        obtain ⟨hk, hr⟩ := h
        set r2 := (l.dropWhile Char.isDigit).tail with hr2
        have hshape : l.dropWhile Char.isDigit = '.' :: r2 := by
          cases hdw : l.dropWhile Char.isDigit with
          | nil => rw [hdw] at hdot; simp at hdot
          | cons a t =>
            rw [hdw] at hdot
            simp only [List.head?_cons, Option.some.injEq] at hdot
            rw [hdot] at hdw ⊢
            rw [hr2, hdw]
            rfl
        refine ⟨l.takeWhile Char.isDigit, r2.takeWhile Char.isDigit, ?_, ?_, ?_, h6, ?_, ?_, ?_⟩
        · intro hnil; rw [hnil] at he; exact he rfl
        · exact fun a ha => List.mem_takeWhile_imp ha
        · exact fun a ha => List.mem_takeWhile_imp ha
        · conv_lhs => rw [← List.takeWhile_append_dropWhile Char.isDigit l]
          rw [hshape, ← hr]
          have hsplit : r2.takeWhile Char.isDigit ++ r2.dropWhile Char.isDigit = r2 :=
            List.takeWhile_append_dropWhile Char.isDigit r2
          rw [hsplit]
        · exact hk.symm
        · intro a ha; rw [← hr] at ha; exact dropWhile_head_not r2 a ha
      · rw [if_neg h6] at h; exact absurd h (by simp)
    · rw [if_neg hdot] at h; exact absurd h (by simp)

theorem matchTrunc_some_length (l k r : List Char) (h : matchTrunc l = some (k, r)) :
    r.length < l.length := by
  obtain ⟨d1, d2, hd1, -, -, h6, hl, -, -⟩ := matchTrunc_some l k r h
  rw [hl]
  simp only [List.length_append, List.length_cons]
  cases d1 with
  | nil => exact absurd rfl hd1
  | cons c cs => simp; omega

theorem digit_head_ne (c a : Char) (hc : Char.isDigit c = true)
    (hna : Char.isDigit a = false) : c ≠ a := by
  intro h; rw [h] at hc; rw [hc] at hna; exact absurd hna (by simp)

theorem matchSci_eval (d1 d2 sgn ex w : List Char) (e : Char) (hd1 : d1 ≠ [])
    (h1 : ∀ a ∈ d1, Char.isDigit a) (hd2 : d2 ≠ []) (h2 : ∀ a ∈ d2, Char.isDigit a)
    (he : e = 'e' ∨ e = 'E') (hsgn : sgn = [] ∨ sgn = ['+'] ∨ sgn = ['-'])
    (hex : ex ≠ []) (h3 : ∀ a ∈ ex, Char.isDigit a)
    (hw : ∀ a, w.head? = some a → Char.isDigit a = false) :
    matchSci (d1 ++ '.' :: (d2 ++ e :: (sgn ++ (ex ++ w)))) =
      some (d1 ++ '.' :: d2.take 2, w) := by
  have hedig : Char.isDigit e = false := by rcases he with h | h <;> subst h <;> rfl
  obtain ⟨ht, hdp⟩ := takeWhile_digits_append d1 ('.' :: (d2 ++ e :: (sgn ++ (ex ++ w))))
    h1 (head_dot_not_digit _)
  obtain ⟨ht2, hd2p⟩ := takeWhile_digits_append d2 (e :: (sgn ++ (ex ++ w))) h2
    (by
      intro a ha
      simp only [List.head?_cons, Option.some.injEq] at ha
      exact ha ▸ hedig)
  obtain ⟨ht3, hd3p⟩ := takeWhile_digits_append ex w h3 hw
  have hexhead : ∀ b, (ex ++ w).head? = some b → Char.isDigit b = true := by
    intro b hb
    cases ex with
    | nil => exact absurd rfl hex
    | cons c cs =>
      simp only [List.cons_append, List.head?_cons, Option.some.injEq] at hb
      exact hb ▸ h3 c (by simp)
  have hexe : ex.isEmpty = false := by
    cases ex with
    | nil => exact absurd rfl hex
    | cons c cs => rfl
  have hr4 : (if (sgn ++ (ex ++ w)).head? = some '+' ∨ (sgn ++ (ex ++ w)).head? = some '-'
      then (sgn ++ (ex ++ w)).tail else sgn ++ (ex ++ w)) = ex ++ w := by
    rcases hsgn with h | h | h <;> subst h
    · rw [List.nil_append, if_neg]
      rintro (hh | hh)
      · exact absurd (hexhead '+' hh) (by decide)
      · exact absurd (hexhead '-' hh) (by decide)
    · have hh : (['+'] ++ (ex ++ w)).head? = some '+' := rfl
      rw [if_pos (Or.inl hh)]
      rfl
    · have hh : (['-'] ++ (ex ++ w)).head? = some '-' := rfl
      rw [if_pos (Or.inr hh)]
      rfl
  have hne : d1.isEmpty = false := by
    cases d1 with
    | nil => exact absurd rfl hd1
    | cons c cs => rfl
  have hne2 : d2.isEmpty = false := by
    cases d2 with
    | nil => exact absurd rfl hd2
    | cons c cs => rfl
  unfold matchSci
  rw [ht, hdp]
  dsimp only [List.head?_cons, List.tail_cons]
  rw [hne, ht2, hne2, hd2p]
  dsimp only [List.head?_cons, List.tail_cons]
  simp only [Bool.false_eq_true, if_false, if_true]
  rw [if_pos (show some e = some 'e' ∨ some e = some 'E' by
    rcases he with h | h <;> simp [h])]
  rw [hr4, ht3, hexe, hd3p]
  simp only [Bool.false_eq_true, if_false]

theorem head_shape (l : List Char) (c : Char) (h : l.head? = some c) : l = c :: l.tail := by
  cases l with
  | nil => simp at h
  | cons a t =>
    simp only [List.head?_cons, Option.some.injEq] at h
    subst h
    rfl

theorem matchSci_none_head (c : Char) (t : List Char) (h : Char.isDigit c = false) :
    matchSci (c :: t) = none := by
  unfold matchSci
  simp [List.takeWhile_cons, h]

theorem matchSci_digits_stop (d w : List Char) (hd : ∀ a ∈ d, Char.isDigit a)
    (hw : ∀ a, w.head? = some a → Char.isDigit a = false)
    (hw2 : w.head? ≠ some '.') :
    matchSci (d ++ w) = none := by
  obtain ⟨ht, hdp⟩ := takeWhile_digits_append d w hd hw
  unfold matchSci
  rw [ht, hdp]
  dsimp only
  by_cases he : d.isEmpty = true
  · rw [if_pos he]
  · rw [if_neg he, if_neg hw2]

theorem matchSci_no_e (d1 d2 w : List Char) (h1 : ∀ a ∈ d1, Char.isDigit a)
    (h2 : ∀ a ∈ d2, Char.isDigit a)
    (hw : ∀ a, w.head? = some a → Char.isDigit a = false)
    (hwe : w.head? ≠ some 'e') (hwE : w.head? ≠ some 'E') :
    matchSci (d1 ++ '.' :: (d2 ++ w)) = none := by
  obtain ⟨ht, hdp⟩ :=
    takeWhile_digits_append d1 ('.' :: (d2 ++ w)) h1 (head_dot_not_digit _)
  obtain ⟨ht2, hd2p⟩ := takeWhile_digits_append d2 w h2 hw
  unfold matchSci
  rw [ht, hdp]
  dsimp only [List.head?_cons, List.tail_cons]
  by_cases he : d1.isEmpty = true
  · rw [if_pos he]
  · rw [if_neg he, if_pos rfl, ht2, hd2p]
    by_cases he2 : d2.isEmpty = true
    · rw [if_pos he2]
    · rw [if_neg he2, if_neg (by rintro (hh | hh); exact hwe hh; exact hwE hh)]

theorem matchSci_some (l k r : List Char) (h : matchSci l = some (k, r)) :
    ∃ d1 d2 mid, d1 ≠ [] ∧ (∀ a ∈ d1, Char.isDigit a) ∧ d2 ≠ [] ∧
      (∀ a ∈ d2, Char.isDigit a) ∧ mid ≠ [] ∧ (∀ a ∈ mid, numLitChar a) ∧
      l = d1 ++ '.' :: (d2 ++ (mid ++ r)) ∧ k = d1 ++ '.' :: d2.take 2 ∧
      (∀ a, r.head? = some a → Char.isDigit a = false) := by
  unfold matchSci at h
  dsimp only at h
  by_cases he : (l.takeWhile Char.isDigit).isEmpty = true
  · rw [if_pos he] at h; exact absurd h (by simp)
  · rw [if_neg he] at h
    by_cases hdot : (l.dropWhile Char.isDigit).head? = some '.'
    · rw [if_pos hdot] at h
      set r2 := (l.dropWhile Char.isDigit).tail with hr2
      by_cases he2 : (r2.takeWhile Char.isDigit).isEmpty = true
      · rw [if_pos he2] at h; exact absurd h (by simp)
      · rw [if_neg he2] at h
        set r3 := r2.dropWhile Char.isDigit with hr3
        by_cases hee : r3.head? = some 'e' ∨ r3.head? = some 'E'
        · rw [if_pos hee] at h
          by_cases hs : r3.tail.head? = some '+' ∨ r3.tail.head? = some '-'
          · rw [if_pos hs] at h
            by_cases hex : (r3.tail.tail.takeWhile Char.isDigit).isEmpty = true
            · rw [if_pos hex] at h; exact absurd h (by simp)
            · rw [if_neg hex] at h
              simp only [Option.some.injEq, Prod.mk.injEq] at h
              obtain ⟨hk, hr⟩ := h
              obtain ⟨ec, hec, hr3shape⟩ : ∃ ec, (ec = 'e' ∨ ec = 'E') ∧ r3 = ec :: r3.tail := by
                rcases hee with hh | hh
                · exact ⟨'e', Or.inl rfl, head_shape r3 'e' hh⟩
                · exact ⟨'E', Or.inr rfl, head_shape r3 'E' hh⟩
              obtain ⟨sc, hsc, htshape⟩ : ∃ sc, (sc = '+' ∨ sc = '-') ∧
                  r3.tail = sc :: r3.tail.tail := by
                rcases hs with hh | hh
                · exact ⟨'+', Or.inl rfl, head_shape r3.tail '+' hh⟩
                · exact ⟨'-', Or.inr rfl, head_shape r3.tail '-' hh⟩
              refine ⟨l.takeWhile Char.isDigit, r2.takeWhile Char.isDigit,
                ec :: sc :: r3.tail.tail.takeWhile Char.isDigit, ?_, ?_, ?_, ?_, ?_, ?_, ?_, ?_, ?_⟩
              · intro hnil; rw [hnil] at he; exact he rfl
              · exact fun a ha => List.mem_takeWhile_imp ha
              · intro hnil; rw [hnil] at he2; exact he2 rfl
              · exact fun a ha => List.mem_takeWhile_imp ha
              · simp
              · intro a ha
                simp only [List.mem_cons] at ha
                rcases ha with rfl | rfl | ha
                · rcases hec with hh | hh <;> subst hh <;> rfl
                · rcases hsc with hh | hh <;> subst hh <;> rfl
                · have := List.mem_takeWhile_imp ha
                  simp [numLitChar, this]
              · have hshape : l.dropWhile Char.isDigit = '.' :: r2 := by
                  cases hdw : l.dropWhile Char.isDigit with
                  | nil => rw [hdw] at hdot; simp at hdot
                  | cons a t =>
                    rw [hdw] at hdot
                    simp only [List.head?_cons, Option.some.injEq] at hdot
                    rw [hdot] at hdw ⊢
                    rw [hr2, hdw]
                    rfl
                conv_lhs => rw [← List.takeWhile_append_dropWhile Char.isDigit l]
                rw [hshape]
                congr 1
                congr 1
                conv_lhs => rw [← List.takeWhile_append_dropWhile Char.isDigit r2]
                congr 1
                rw [← hr3, hr3shape, htshape]
                simp only [List.cons_append]
                congr 2
                rw [← hr]
                exact (List.takeWhile_append_dropWhile Char.isDigit r3.tail.tail).symm
              · exact hk.symm
              · intro a ha; rw [← hr] at ha; exact dropWhile_head_not _ a ha
          · rw [if_neg hs] at h
            by_cases hex : (r3.tail.takeWhile Char.isDigit).isEmpty = true
            · rw [if_pos hex] at h; exact absurd h (by simp)
            · rw [if_neg hex] at h
              simp only [Option.some.injEq, Prod.mk.injEq] at h
              obtain ⟨hk, hr⟩ := h
              obtain ⟨ec, hec, hr3shape⟩ : ∃ ec, (ec = 'e' ∨ ec = 'E') ∧ r3 = ec :: r3.tail := by
                rcases hee with hh | hh
                · exact ⟨'e', Or.inl rfl, head_shape r3 'e' hh⟩
                · exact ⟨'E', Or.inr rfl, head_shape r3 'E' hh⟩
              refine ⟨l.takeWhile Char.isDigit, r2.takeWhile Char.isDigit,
                ec :: r3.tail.takeWhile Char.isDigit, ?_, ?_, ?_, ?_, ?_, ?_, ?_, ?_, ?_⟩
              · intro hnil; rw [hnil] at he; exact he rfl
              · exact fun a ha => List.mem_takeWhile_imp ha
              · intro hnil; rw [hnil] at he2; exact he2 rfl
              · exact fun a ha => List.mem_takeWhile_imp ha
              · simp
              · intro a ha
                simp only [List.mem_cons] at ha
                rcases ha with rfl | ha
                · rcases hec with hh | hh <;> subst hh <;> rfl
                · have := List.mem_takeWhile_imp ha
                  simp [numLitChar, this]
              · have hshape : l.dropWhile Char.isDigit = '.' :: r2 := by
                  cases hdw : l.dropWhile Char.isDigit with
                  | nil => rw [hdw] at hdot; simp at hdot
                  | cons a t =>
                    rw [hdw] at hdot
                    simp only [List.head?_cons, Option.some.injEq] at hdot
                    rw [hdot] at hdw ⊢
                    rw [hr2, hdw]
                    rfl
                conv_lhs => rw [← List.takeWhile_append_dropWhile Char.isDigit l]
                rw [hshape]
                congr 1
                congr 1
                conv_lhs => rw [← List.takeWhile_append_dropWhile Char.isDigit r2]
                congr 1
                rw [← hr3, hr3shape]
                simp only [List.cons_append]
                congr 1
                rw [← hr]
                exact (List.takeWhile_append_dropWhile Char.isDigit r3.tail).symm
              · exact hk.symm
              · intro a ha; rw [← hr] at ha; exact dropWhile_head_not _ a ha
        · rw [if_neg hee] at h; exact absurd h (by simp)
    · rw [if_neg hdot] at h; exact absurd h (by simp)

theorem matchSci_some_length (l k r : List Char) (h : matchSci l = some (k, r)) :
    r.length < l.length := by
  obtain ⟨d1, d2, mid, hd1, -, -, -, -, -, hl, -, -⟩ := matchSci_some l k r h
  rw [hl]
  simp only [List.length_append, List.length_cons]
  cases d1 with
  | nil => exact absurd rfl hd1
  | cons c cs => simp; omega

theorem scanTrunc_congr : ∀ (f f' : ℕ) (l : List Char), l.length ≤ f → l.length ≤ f' →
    scanTrunc f l = scanTrunc f' l := by
  intro f
  induction f with
  | zero =>
    intro f' l hf _
    have hl : l = [] := List.length_eq_zero.mp (Nat.le_zero.mp hf)
    subst hl
    cases f' <;> rfl
  | succ f ih =>
    intro f' l hf hf'
    cases l with
    | nil => cases f' <;> rfl
    | cons c t =>
      cases f' with
      | zero => simp at hf'
      | succ f2 =>
        simp only [scanTrunc]
        cases hm : matchTrunc (c :: t) with
        | none =>
          have hb : t.length ≤ f := by simpa using hf
          have hb2 : t.length ≤ f2 := by simpa using hf'
          dsimp only
          rw [ih f2 t hb hb2]
        | some kr =>
          obtain ⟨k, r⟩ := kr
          have hlt := matchTrunc_some_length (c :: t) k r hm
          have hb : r.length ≤ f := by simp at hlt hf ⊢; omega
          have hb2 : r.length ≤ f2 := by simp at hlt hf' ⊢; omega
          dsimp only
          rw [ih f2 r hb hb2]

theorem truncFrac6_cons (c : Char) (t : List Char) :
    truncFrac6 (c :: t) =
      match matchTrunc (c :: t) with
      | some (k, r) => k ++ truncFrac6 r
      | none => c :: truncFrac6 t := by
  show scanTrunc (t.length + 1) (c :: t) = _
  simp only [scanTrunc]
  cases hm : matchTrunc (c :: t) with
  | none => rfl
  | some kr =>
    obtain ⟨k, r⟩ := kr
    have hlt := matchTrunc_some_length (c :: t) k r hm
    have hb : r.length ≤ t.length := by simp at hlt; omega
    simp only []
    congr 1
    exact scanTrunc_congr t.length r.length r hb le_rfl

theorem scanSci_congr : ∀ (f f' : ℕ) (l : List Char), l.length ≤ f → l.length ≤ f' →
    scanSci f l = scanSci f' l := by
  intro f
  induction f with
  | zero =>
    intro f' l hf _
    have hl : l = [] := List.length_eq_zero.mp (Nat.le_zero.mp hf)
    subst hl
    cases f' <;> rfl
  | succ f ih =>
    intro f' l hf hf'
    cases l with
    | nil => cases f' <;> rfl
    | cons c t =>
      cases f' with
      | zero => simp at hf'
      | succ f2 =>
        simp only [scanSci]
        cases hm : matchSci (c :: t) with
        | none =>
          have hb : t.length ≤ f := by simpa using hf
          have hb2 : t.length ≤ f2 := by simpa using hf'
          dsimp only
          rw [ih f2 t hb hb2]
        | some kr =>
          obtain ⟨k, r⟩ := kr
          have hlt := matchSci_some_length (c :: t) k r hm
          have hb : r.length ≤ f := by simp at hlt hf ⊢; omega
          have hb2 : r.length ≤ f2 := by simp at hlt hf' ⊢; omega
          dsimp only
          rw [ih f2 r hb hb2]

theorem fixSci_cons (c : Char) (t : List Char) :
    fixSci (c :: t) =
      match matchSci (c :: t) with
      | some (k, r) => k ++ fixSci r
      | none => c :: fixSci t := by
  show scanSci (t.length + 1) (c :: t) = _
  simp only [scanSci]
  cases hm : matchSci (c :: t) with
  | none => rfl
  | some kr =>
    obtain ⟨k, r⟩ := kr
    have hlt := matchSci_some_length (c :: t) k r hm
    have hb : r.length ≤ t.length := by simp at hlt; omega
    simp only []
    congr 1
    exact scanSci_congr t.length r.length r hb le_rfl

theorem truncFrac6_sep (c : Char) (w : List Char) (h : Char.isDigit c = false) :
    truncFrac6 (c :: w) = c :: truncFrac6 w := by
  rw [truncFrac6_cons, matchTrunc_none_head c w h]

theorem fixSci_sep (c : Char) (w : List Char) (h : Char.isDigit c = false) :
    fixSci (c :: w) = c :: fixSci w := by
  rw [fixSci_cons, matchSci_none_head c w h]

theorem truncFrac6_digits (d w : List Char) (hd : ∀ a ∈ d, Char.isDigit a)
    (hw : ∀ a, w.head? = some a → Char.isDigit a = false)
    (hw2 : w.head? ≠ some '.') :
    truncFrac6 (d ++ w) = d ++ truncFrac6 w := by
  induction d with
  | nil => simp
  | cons c t ih =>
    have hm : matchTrunc (c :: (t ++ w)) = none := by
      rw [← List.cons_append]
      exact matchTrunc_digits_stop (c :: t) w hd hw hw2
    rw [List.cons_append, truncFrac6_cons, hm]
    have iht := ih (fun a ha => hd a (by simp [ha]))
    simp only []
    rw [iht]
    rfl

theorem fixSci_digits (d w : List Char) (hd : ∀ a ∈ d, Char.isDigit a)
    (hw : ∀ a, w.head? = some a → Char.isDigit a = false)
    (hw2 : w.head? ≠ some '.') :
    fixSci (d ++ w) = d ++ fixSci w := by
  induction d with
  | nil => simp
  | cons c t ih =>
    have hm : matchSci (c :: (t ++ w)) = none := by
      rw [← List.cons_append]
      exact matchSci_digits_stop (c :: t) w hd hw hw2
    rw [List.cons_append, fixSci_cons, hm]
    have iht := ih (fun a ha => hd a (by simp [ha]))
    simp only []
    rw [iht]
    rfl

theorem truncFrac6_decimal_short (d1 d2 w : List Char) (h1 : ∀ a ∈ d1, Char.isDigit a)
    (h2 : ∀ a ∈ d2, Char.isDigit a) (hlen : ¬ 6 < d2.length)
    (hw : ∀ a, w.head? = some a → Char.isDigit a = false)
    (hw2 : w.head? ≠ some '.') :
    truncFrac6 (d1 ++ '.' :: (d2 ++ w)) = d1 ++ '.' :: (d2 ++ truncFrac6 w) := by
  induction d1 with
  | nil =>
    simp only [List.nil_append]
    rw [truncFrac6_sep '.' (d2 ++ w) rfl]
    rw [truncFrac6_digits d2 w h2 hw hw2]
  | cons c t ih =>
    have hm : matchTrunc (c :: (t ++ '.' :: (d2 ++ w))) = none := by
      rw [← List.cons_append]
      rw [matchTrunc_eval (c :: t) d2 w (by simp) h1 h2 hw, if_neg hlen]
    rw [List.cons_append, truncFrac6_cons, hm]
    dsimp only
    rw [ih (fun a ha => h1 a (by simp [ha]))]
    rfl

theorem allDigits_iff (l : List Char) : allDigits l = true ↔ ∀ a ∈ l, Char.isDigit a := by
  simp [allDigits, List.all_eq_true]

theorem sepOK_props (c : Char) (h : sepOKChar c = true) :
    Char.isDigit c = false ∧ c ≠ '.' ∧ c ≠ 'e' ∧ c ≠ 'E' ∧ c ≠ '+' ∧ c ≠ '-' := by
  simp only [sepOKChar, Bool.and_eq_true, Bool.not_eq_true', beq_eq_false_iff_ne, ne_eq] at h
  exact ⟨h.1.1.1.1.1, h.1.1.1.1.2, h.1.1.1.2, h.1.1.2, h.1.2, h.2⟩

theorem truncFrac6_sci_tail (sgn ex w : List Char) (e : Char)
    (he : e = 'e' ∨ e = 'E') (hsgn : sgn = [] ∨ sgn = ['+'] ∨ sgn = ['-'])
    (h3 : ∀ a ∈ ex, Char.isDigit a)
    (hw : ∀ a, w.head? = some a → Char.isDigit a = false)
    (hw2 : w.head? ≠ some '.') :
    truncFrac6 (e :: (sgn ++ (ex ++ w))) = e :: (sgn ++ (ex ++ truncFrac6 w)) := by
  have hed : Char.isDigit e = false := by rcases he with h | h <;> subst h <;> rfl
  rw [truncFrac6_sep e _ hed]
  congr 1
  rcases hsgn with h | h | h <;> subst h
  · simpa using truncFrac6_digits ex w h3 hw hw2
  · show truncFrac6 ('+' :: (ex ++ w)) = '+' :: (ex ++ truncFrac6 w)
    rw [truncFrac6_sep '+' _ rfl]
    rw [truncFrac6_digits ex w h3 hw hw2]
  · show truncFrac6 ('-' :: (ex ++ w)) = '-' :: (ex ++ truncFrac6 w)
    rw [truncFrac6_sep '-' _ rfl]
    rw [truncFrac6_digits ex w h3 hw hw2]

theorem fixSci_sci_tail_head (sgn ex w : List Char) (e : Char)
    (he : e = 'e' ∨ e = 'E') (_hex : ex ≠ []) :
    ∀ a, ((e :: (sgn ++ (ex ++ w))) : List Char).head? = some a →
      Char.isDigit a = false := by
  intro a ha
  simp only [List.head?_cons, Option.some.injEq] at ha
  subst ha
  rcases he with h | h <;> subst h <;> rfl

theorem ne_nil_of_isEmpty_false (l : List Char) (h : l.isEmpty = false) : l ≠ [] := by
  cases l with
  | nil => simp at h
  | cons a t => simp

theorem wfSci_props (sp : SciPart) (h : wfSci (some sp) = true) :
    (sp.e = 'e' ∨ sp.e = 'E') ∧ (sp.sgn = [] ∨ sp.sgn = ['+'] ∨ sp.sgn = ['-']) ∧
      sp.ex ≠ [] ∧ (∀ a ∈ sp.ex, Char.isDigit a) := by
  simp only [wfSci, Bool.and_eq_true, Bool.not_eq_true'] at h
  obtain ⟨⟨⟨hee, hsgn⟩, hexne⟩, hexd⟩ := h
  refine ⟨?_, ?_, ne_nil_of_isEmpty_false sp.ex hexne, (allDigits_iff sp.ex).mp hexd⟩
  · rcases Bool.or_eq_true_iff.mp hee with h | h
    · exact Or.inl (beq_iff_eq.mp h)
    · exact Or.inr (beq_iff_eq.mp h)
  · rcases Bool.or_eq_true_iff.mp hsgn with h | h
    · rcases Bool.or_eq_true_iff.mp h with h2 | h2
      · exact Or.inl (by simpa [List.isEmpty_iff] using h2)
      · exact Or.inr (Or.inl (by simpa using h2))
    · exact Or.inr (Or.inr (by simpa using h))

theorem sci_head_not_dot (sp : SciPart) (he : sp.e = 'e' ∨ sp.e = 'E') (x : List Char) :
    ((sp.e :: x) : List Char).head? ≠ some '.' := by
  intro hcon
  simp only [List.head?_cons, Option.some.injEq] at hcon
  rcases he with h | h <;> rw [h] at hcon <;> exact absurd hcon (by decide)

theorem truncFrac6_numTok (neg : Bool) (d1 : List Char) (frac : Option (List Char))
    (sci : Option SciPart) (w : List Char)
    (hwf : wfTok (JTok.num neg d1 frac sci) = true)
    (hw : ∀ a, w.head? = some a → Char.isDigit a = false)
    (hw2 : w.head? ≠ some '.') :
    truncFrac6 (renderTok (JTok.num neg d1 frac sci) ++ w) =
      renderTok (truncTok (JTok.num neg d1 frac sci)) ++ truncFrac6 w := by
  simp only [wfTok, Bool.and_eq_true, Bool.not_eq_true'] at hwf
  obtain ⟨⟨⟨hd1, hall⟩, hfrac⟩, hsci⟩ := hwf
  have h1 : ∀ a ∈ d1, Char.isDigit a := (allDigits_iff d1).mp hall
  have hd1ne : d1 ≠ [] := ne_nil_of_isEmpty_false d1 hd1
  have hcore : truncFrac6 (d1 ++ renderFrac frac ++ renderSci sci ++ w) =
      renderTok (truncTok (JTok.num false d1 frac sci)) ++ truncFrac6 w := by
    cases frac with
    | none =>
      simp only [renderFrac, List.append_nil, truncTok, renderTok, List.nil_append,
        Bool.false_eq_true, if_false]
      cases sci with
      | none =>
        simp only [renderSci, List.append_nil]
        exact truncFrac6_digits d1 w h1 hw hw2
      | some sp =>
        obtain ⟨he, hsgn3, hexne2, h3⟩ := wfSci_props sp hsci
        simp only [renderSci, List.append_assoc, List.cons_append]
        rw [truncFrac6_digits d1 (sp.e :: (sp.sgn ++ (sp.ex ++ w))) h1
          (fixSci_sci_tail_head sp.sgn sp.ex w sp.e he hexne2)
          (sci_head_not_dot sp he _)]
        rw [truncFrac6_sci_tail sp.sgn sp.ex w sp.e he hsgn3 h3 hw hw2]
    | some d2 =>
      simp only [wfFrac, Bool.and_eq_true, Bool.not_eq_true'] at hfrac
      obtain ⟨hd2, hall2⟩ := hfrac
      have h2 : ∀ a ∈ d2, Char.isDigit a := (allDigits_iff d2).mp hall2
      cases sci with
      | none =>
        simp only [renderSci, List.append_nil, renderFrac, truncTok, renderTok,
          List.nil_append, Bool.false_eq_true, if_false]
        by_cases h6 : 6 < d2.length
        · cases d1 with
          | nil => exact absurd rfl hd1ne
          | cons c t =>
            rw [show ((c :: t) ++ '.' :: d2 ++ w) = c :: (t ++ '.' :: (d2 ++ w)) by simp,
              truncFrac6_cons]
            rw [show matchTrunc (c :: (t ++ '.' :: (d2 ++ w))) =
                some ((c :: t) ++ '.' :: d2.take 6, w) from by
              rw [← List.cons_append,
                matchTrunc_eval (c :: t) d2 w (by simp) h1 h2 hw, if_pos h6]]
            dsimp only
            simp [if_pos h6]
        · rw [show (d1 ++ '.' :: d2 ++ w) = d1 ++ '.' :: (d2 ++ w) by simp,
            truncFrac6_decimal_short d1 d2 w h1 h2 h6 hw hw2]
          rw [if_neg h6]
          simp
      | some sp =>
        obtain ⟨he, hsgn3, hexne2, h3⟩ := wfSci_props sp hsci
        have hshape : d1 ++ renderFrac (some d2) ++ renderSci (some sp) ++ w =
            d1 ++ '.' :: (d2 ++ (sp.e :: (sp.sgn ++ (sp.ex ++ w)))) := by
          simp [renderFrac, renderSci]
        rw [hshape]
        simp only [renderFrac, truncTok, renderTok, List.nil_append,
          Bool.false_eq_true, if_false, renderSci]
        by_cases h6 : 6 < d2.length
        · cases d1 with
          | nil => exact absurd rfl hd1ne
          | cons c t =>
            rw [show ((c :: t) ++ '.' :: (d2 ++ (sp.e :: (sp.sgn ++ (sp.ex ++ w))))) =
                c :: (t ++ '.' :: (d2 ++ (sp.e :: (sp.sgn ++ (sp.ex ++ w))))) by simp,
              truncFrac6_cons]
            rw [show matchTrunc (c :: (t ++ '.' :: (d2 ++ (sp.e :: (sp.sgn ++ (sp.ex ++ w)))))) =
                some ((c :: t) ++ '.' :: d2.take 6, sp.e :: (sp.sgn ++ (sp.ex ++ w))) from by
              rw [← List.cons_append,
                matchTrunc_eval (c :: t) d2 (sp.e :: (sp.sgn ++ (sp.ex ++ w))) (by simp) h1 h2
                  (fixSci_sci_tail_head sp.sgn sp.ex w sp.e he hexne2), if_pos h6]]
            dsimp only
            rw [truncFrac6_sci_tail sp.sgn sp.ex w sp.e he hsgn3 h3 hw hw2]
            rw [if_pos h6]
            simp
        · rw [truncFrac6_decimal_short d1 d2 (sp.e :: (sp.sgn ++ (sp.ex ++ w))) h1 h2 h6
            (fixSci_sci_tail_head sp.sgn sp.ex w sp.e he hexne2)
            (sci_head_not_dot sp he _)]
          rw [truncFrac6_sci_tail sp.sgn sp.ex w sp.e he hsgn3 h3 hw hw2]
          rw [if_neg h6]
          simp
  cases neg with
  | false =>
    simpa only [renderTok, Bool.false_eq_true, if_false, List.nil_append] using hcore
  | true =>
    have hstep : renderTok (JTok.num true d1 frac sci) ++ w =
        '-' :: (d1 ++ renderFrac frac ++ renderSci sci ++ w) := by
      simp [renderTok]
    have hstep2 : renderTok (truncTok (JTok.num true d1 frac sci)) =
        '-' :: renderTok (truncTok (JTok.num false d1 frac sci)) := by
      simp [renderTok, truncTok]
    rw [hstep, truncFrac6_sep '-' _ rfl, hcore, hstep2]
    rfl

theorem fixSci_decimal (d1 d2 w : List Char) (h1 : ∀ a ∈ d1, Char.isDigit a)
    (h2 : ∀ a ∈ d2, Char.isDigit a)
    (hw : ∀ a, w.head? = some a → Char.isDigit a = false)
    (hw2 : w.head? ≠ some '.') (hwe : w.head? ≠ some 'e') (hwE : w.head? ≠ some 'E') :
    fixSci (d1 ++ '.' :: (d2 ++ w)) = d1 ++ '.' :: (d2 ++ fixSci w) := by
  induction d1 with
  | nil =>
    simp only [List.nil_append]
    rw [fixSci_sep '.' (d2 ++ w) rfl, fixSci_digits d2 w h2 hw hw2]
  | cons c t ih =>
    have hm : matchSci (c :: (t ++ '.' :: (d2 ++ w))) = none := by
      rw [← List.cons_append]
      exact matchSci_no_e (c :: t) d2 w h1 h2 hw hwe hwE
    rw [List.cons_append, fixSci_cons, hm]
    dsimp only
    rw [ih (fun a ha => h1 a (by simp [ha]))]
    rfl

theorem fixSci_sci_tail (sgn ex w : List Char) (e : Char)
    (he : e = 'e' ∨ e = 'E') (hsgn : sgn = [] ∨ sgn = ['+'] ∨ sgn = ['-'])
    (h3 : ∀ a ∈ ex, Char.isDigit a)
    (hw : ∀ a, w.head? = some a → Char.isDigit a = false)
    (hw2 : w.head? ≠ some '.') :
    fixSci (e :: (sgn ++ (ex ++ w))) = e :: (sgn ++ (ex ++ fixSci w)) := by
  have hed : Char.isDigit e = false := by rcases he with h | h <;> subst h <;> rfl
  rw [fixSci_sep e _ hed]
  congr 1
  rcases hsgn with h | h | h <;> subst h
  · simpa using fixSci_digits ex w h3 hw hw2
  · show fixSci ('+' :: (ex ++ w)) = '+' :: (ex ++ fixSci w)
    rw [fixSci_sep '+' _ rfl, fixSci_digits ex w h3 hw hw2]
  · show fixSci ('-' :: (ex ++ w)) = '-' :: (ex ++ fixSci w)
    rw [fixSci_sep '-' _ rfl, fixSci_digits ex w h3 hw hw2]

theorem fixSci_numTok (neg : Bool) (d1 : List Char) (frac : Option (List Char))
    (sci : Option SciPart) (w : List Char)
    (hwf : wfTok (JTok.num neg d1 frac sci) = true)
    (hw : ∀ a, w.head? = some a → Char.isDigit a = false)
    (hw2 : w.head? ≠ some '.') (hwe : w.head? ≠ some 'e') (hwE : w.head? ≠ some 'E') :
    fixSci (renderTok (JTok.num neg d1 frac sci) ++ w) =
      renderTok (sciTok (JTok.num neg d1 frac sci)) ++ fixSci w := by
  simp only [wfTok, Bool.and_eq_true, Bool.not_eq_true'] at hwf
  obtain ⟨⟨⟨hd1, hall⟩, hfrac⟩, hsci⟩ := hwf
  have h1 : ∀ a ∈ d1, Char.isDigit a := (allDigits_iff d1).mp hall
  have hd1ne : d1 ≠ [] := ne_nil_of_isEmpty_false d1 hd1
  have hcore : fixSci (d1 ++ renderFrac frac ++ renderSci sci ++ w) =
      renderTok (sciTok (JTok.num false d1 frac sci)) ++ fixSci w := by
    cases frac with
    | none =>
      simp only [renderFrac, List.append_nil, sciTok, renderTok, List.nil_append,
        Bool.false_eq_true, if_false]
      cases sci with
      | none =>
        simp only [renderSci, List.append_nil]
        exact fixSci_digits d1 w h1 hw hw2
      | some sp =>
        obtain ⟨he, hsgn3, hexne2, h3⟩ := wfSci_props sp hsci
        simp only [renderSci, List.append_assoc, List.cons_append]
        rw [fixSci_digits d1 (sp.e :: (sp.sgn ++ (sp.ex ++ w))) h1
          (fixSci_sci_tail_head sp.sgn sp.ex w sp.e he hexne2)
          (sci_head_not_dot sp he _)]
        rw [fixSci_sci_tail sp.sgn sp.ex w sp.e he hsgn3 h3 hw hw2]
    | some d2 =>
      simp only [wfFrac, Bool.and_eq_true, Bool.not_eq_true'] at hfrac
      obtain ⟨hd2, hall2⟩ := hfrac
      have h2 : ∀ a ∈ d2, Char.isDigit a := (allDigits_iff d2).mp hall2
      cases sci with
      | none =>
        simp only [renderSci, List.append_nil, renderFrac, sciTok, renderTok,
          List.nil_append, Bool.false_eq_true, if_false]
        rw [show (d1 ++ '.' :: d2 ++ w) = d1 ++ '.' :: (d2 ++ w) by simp,
          fixSci_decimal d1 d2 w h1 h2 hw hw2 hwe hwE]
        simp
      | some sp =>
        obtain ⟨he, hsgn3, hexne2, h3⟩ := wfSci_props sp hsci
        have hshape : d1 ++ renderFrac (some d2) ++ renderSci (some sp) ++ w =
            d1 ++ '.' :: (d2 ++ sp.e :: (sp.sgn ++ (sp.ex ++ w))) := by
          simp [renderFrac, renderSci]
        rw [hshape]
        cases d1 with
        | nil => exact absurd rfl hd1ne
        | cons c t =>
          rw [show ((c :: t) ++ '.' :: (d2 ++ sp.e :: (sp.sgn ++ (sp.ex ++ w)))) =
              c :: (t ++ '.' :: (d2 ++ sp.e :: (sp.sgn ++ (sp.ex ++ w)))) by simp,
            fixSci_cons]
          rw [show matchSci (c :: (t ++ '.' :: (d2 ++ sp.e :: (sp.sgn ++ (sp.ex ++ w))))) =
              some ((c :: t) ++ '.' :: d2.take 2, w) from by
            rw [← List.cons_append]
            have hd2ne : d2 ≠ [] := ne_nil_of_isEmpty_false d2 hd2
            exact matchSci_eval (c :: t) d2 sp.sgn sp.ex w sp.e (by simp) h1 hd2ne h2
              he hsgn3 hexne2 h3 hw]
          dsimp only [sciTok, renderTok]
          simp [renderFrac, renderSci]
  cases neg with
  | false =>
    simpa only [renderTok, Bool.false_eq_true, if_false, List.nil_append] using hcore
  | true =>
    have hstep : renderTok (JTok.num true d1 frac sci) ++ w =
        '-' :: (d1 ++ renderFrac frac ++ renderSci sci ++ w) := by
      simp [renderTok]
    have hstep2 : renderTok (sciTok (JTok.num true d1 frac sci)) =
        '-' :: renderTok (sciTok (JTok.num false d1 frac sci)) := by
      cases frac with
      | none => cases sci <;> simp [renderTok, sciTok]
      | some d2 => cases sci <;> simp [renderTok, sciTok]
    rw [hstep, fixSci_sep '-' _ rfl, hcore, hstep2]
    rfl

theorem wfToks_cons_wf (t : JTok) (ts : List JTok) (h : wfToks (t :: ts) = true) :
    wfTok t = true ∧ wfToks ts = true := by
  cases ts with
  | nil => exact ⟨h, rfl⟩
  | cons t2 ts2 =>
    simp only [wfToks, Bool.and_eq_true] at h
    exact ⟨h.1.1, h.2⟩

theorem wfToks_adj (t t2 : JTok) (ts : List JTok) (h : wfToks (t :: t2 :: ts) = true) :
    isNumTok t = false ∨ isNumTok t2 = false := by
  simp only [wfToks, Bool.and_eq_true] at h
  have h2 := h.1.2
  rcases Bool.or_eq_true_iff.mp h2 with hh | hh
  · exact Or.inl (by simpa using hh)
  · exact Or.inr (by simpa using hh)

theorem renderToks_boundary (ts : List JTok) (h : wfToks ts = true)
    (hsep : ∀ t2 ts2, ts = t2 :: ts2 → isNumTok t2 = false) :
    (∀ a, (renderToks ts).head? = some a → Char.isDigit a = false) ∧
    (renderToks ts).head? ≠ some '.' ∧ (renderToks ts).head? ≠ some 'e' ∧
    (renderToks ts).head? ≠ some 'E' := by
  cases ts with
  | nil => simp [renderToks]
  | cons t ts2 =>
    cases t with
    | num neg d1 frac sci => exact absurd (hsep _ _ rfl) (by simp [isNumTok])
    | sep c =>
      have hsepOK : sepOKChar c = true := (wfToks_cons_wf _ _ h).1
      obtain ⟨hdig, hdot, hce, hcE, _, _⟩ := sepOK_props c hsepOK
      have hhead : (renderToks (JTok.sep c :: ts2)).head? = some c := rfl
      refine ⟨?_, ?_, ?_, ?_⟩
      · intro a ha
        rw [hhead] at ha
        simp only [Option.some.injEq] at ha
        exact ha ▸ hdig
      · rw [hhead]; simp only [ne_eq, Option.some.injEq]; exact hdot
      · rw [hhead]; simp only [ne_eq, Option.some.injEq]; exact hce
      · rw [hhead]; simp only [ne_eq, Option.some.injEq]; exact hcE

theorem truncFrac6_renderToks (ts : List JTok) (h : wfToks ts = true) :
    truncFrac6 (renderToks ts) = renderToks (ts.map truncTok) := by
  induction ts with
  | nil => rfl
  | cons t ts ih =>
    obtain ⟨hwf, htail⟩ := wfToks_cons_wf t ts h
    cases t with
    | sep c =>
      have hdig : Char.isDigit c = false := (sepOK_props c hwf).1
      rw [show renderToks (JTok.sep c :: ts) = c :: renderToks ts from rfl,
        truncFrac6_sep c _ hdig, ih htail]
      rfl
    | num neg d1 frac sci =>
      have hsep : ∀ t2 ts2, ts = t2 :: ts2 → isNumTok t2 = false := by
        intro t2 ts2 heq
        subst heq
        rcases wfToks_adj _ t2 _ h with hh | hh
        · exact absurd hh (by simp [isNumTok])
        · exact hh
      obtain ⟨hw, hw2, _, _⟩ := renderToks_boundary ts htail hsep
      rw [show renderToks (JTok.num neg d1 frac sci :: ts) =
          renderTok (JTok.num neg d1 frac sci) ++ renderToks ts from rfl,
        truncFrac6_numTok neg d1 frac sci (renderToks ts) hwf hw hw2, ih htail]
      rfl

theorem fixSci_renderToks (ts : List JTok) (h : wfToks ts = true) :
    fixSci (renderToks ts) = renderToks (ts.map sciTok) := by
  induction ts with
  | nil => rfl
  | cons t ts ih =>
    obtain ⟨hwf, htail⟩ := wfToks_cons_wf t ts h
    cases t with
    | sep c =>
      have hdig : Char.isDigit c = false := (sepOK_props c hwf).1
      rw [show renderToks (JTok.sep c :: ts) = c :: renderToks ts from rfl,
        fixSci_sep c _ hdig, ih htail]
      rfl
    | num neg d1 frac sci =>
      have hsep : ∀ t2 ts2, ts = t2 :: ts2 → isNumTok t2 = false := by
        intro t2 ts2 heq
        subst heq
        rcases wfToks_adj _ t2 _ h with hh | hh
        · exact absurd hh (by simp [isNumTok])
        · exact hh
      obtain ⟨hw, hw2, hwe, hwE⟩ := renderToks_boundary ts htail hsep
      rw [show renderToks (JTok.num neg d1 frac sci :: ts) =
          renderTok (JTok.num neg d1 frac sci) ++ renderToks ts from rfl,
        fixSci_numTok neg d1 frac sci (renderToks ts) hwf hw hw2 hwe hwE, ih htail]
      rfl

theorem take_isEmpty_false (n : ℕ) (l : List Char) (hn : 0 < n) (hl : l.isEmpty = false) :
    (l.take n).isEmpty = false := by
  cases l with
  | nil => simp at hl
  | cons c t =>
    cases n with
    | zero => omega
    | succ m => rfl

theorem allDigits_take (n : ℕ) (l : List Char) (h : allDigits l = true) :
    allDigits (l.take n) = true := by
  rw [allDigits_iff] at h ⊢
  exact fun a ha => h a (List.take_subset n l ha)

theorem wfTok_truncTok (t : JTok) (h : wfTok t = true) : wfTok (truncTok t) = true := by
  cases t with
  | sep c => exact h
  | num neg d1 frac sci =>
    cases frac with
    | none => exact h
    | some d2 =>
      simp only [wfTok, truncTok, Bool.and_eq_true, wfFrac, Bool.not_eq_true'] at h ⊢
      obtain ⟨⟨hq1, hq2, hq3⟩, hq4⟩ := h
      refine ⟨⟨hq1, ?_⟩, hq4⟩
      by_cases h6 : 6 < d2.length
      · rw [if_pos h6]
        exact ⟨take_isEmpty_false 6 d2 (by omega) hq2, allDigits_take 6 d2 hq3⟩
      · rw [if_neg h6]
        exact ⟨hq2, hq3⟩

theorem wfTok_sciTok (t : JTok) (h : wfTok t = true) : wfTok (sciTok t) = true := by
  cases t with
  | sep c => exact h
  | num neg d1 frac sci =>
    cases frac with
    | none => cases sci <;> exact h
    | some d2 =>
      cases sci with
      | none => exact h
      | some sp =>
        simp only [wfTok, sciTok, Bool.and_eq_true, wfFrac, wfSci,
          Bool.not_eq_true'] at h ⊢
        obtain ⟨⟨hq1, hq2, hq3⟩, hq4⟩ := h
        exact ⟨⟨hq1, take_isEmpty_false 2 d2 (by omega) hq2, allDigits_take 2 d2 hq3⟩,
          trivial⟩

theorem isNumTok_truncTok (t : JTok) : isNumTok (truncTok t) = isNumTok t := by
  cases t with
  | sep c => rfl
  | num neg d1 frac sci => rfl

theorem isNumTok_sciTok (t : JTok) : isNumTok (sciTok t) = isNumTok t := by
  cases t with
  | sep c => rfl
  | num neg d1 frac sci =>
    cases frac with
    | none => cases sci <;> rfl
    | some d2 => cases sci <;> rfl

theorem wfToks_map (f : JTok → JTok) (hf : ∀ t, wfTok t = true → wfTok (f t) = true)
    (hn : ∀ t, isNumTok (f t) = isNumTok t) :
    ∀ ts, wfToks ts = true → wfToks (ts.map f) = true := by
  intro ts
  induction ts with
  | nil => intro h; exact h
  | cons t ts ih =>
    cases ts with
    | nil =>
      intro h
      simpa [wfToks, List.map] using hf t (by simpa [wfToks] using h)
    | cons t2 ts2 =>
      intro h
      simp only [wfToks, Bool.and_eq_true] at h
      obtain ⟨⟨h1, h2⟩, h3⟩ := h
      have ihr := ih h3
      simp only [List.map]
      show (wfTok (f t) && (!isNumTok (f t) || !isNumTok (f t2)) &&
        wfToks (f t2 :: ts2.map f)) = true
      simp only [Bool.and_eq_true]
      refine ⟨⟨hf t h1, ?_⟩, by simpa [List.map] using ihr⟩
      rw [hn t, hn t2]
      exact h2

theorem sciTok_truncTok_idem (t : JTok) :
    sciTok (truncTok (sciTok (truncTok t))) = sciTok (truncTok t) := by
  cases t with
  | sep c => rfl
  | num neg d1 frac sci =>
    cases frac with
    | none => cases sci <;> rfl
    | some d2 =>
      cases sci with
      | none =>
        by_cases h6 : 6 < d2.length
        · simp [truncTok, sciTok, h6,
            if_neg (show ¬ 6 < (d2.take 6).length by rw [List.length_take]; omega)]
        · simp [truncTok, sciTok, h6]
      | some sp =>
        by_cases h6 : 6 < d2.length
        · simp [truncTok, sciTok, h6,
            if_neg (show ¬ 6 < ((d2.take 6).take 2).length by rw [List.length_take]; omega)]
        · simp [truncTok, sciTok, h6,
            if_neg (show ¬ 6 < (d2.take 2).length by rw [List.length_take]; omega)]

-- ===========================================================================
-- Sublist and filter facts (sanitization never fabricates content)
-- ===========================================================================

theorem removeAllGo_sublist : ∀ (fuel : ℕ) (pat l : List Char),
    List.Sublist (removeAllGo fuel pat l) l := by
  intro fuel
  induction fuel with
  | zero =>
    intro pat l
    cases l with
    | nil => exact List.Sublist.refl _
    | cons c t => exact List.Sublist.refl _
  | succ f ih =>
    intro pat l
    cases l with
    | nil => exact List.Sublist.refl _
    | cons c t =>
      simp only [removeAllGo]
      by_cases hc : (!pat.isEmpty && leadsWith pat (c :: t)) = true
      · rw [if_pos hc]
        exact (ih pat ((c :: t).drop pat.length)).trans (List.drop_sublist _ _)
      · rw [if_neg hc]
        exact List.Sublist.cons₂ c (ih pat t)

theorem removeAll_sublist (pat l : List Char) : List.Sublist (removeAll pat l) l :=
  removeAllGo_sublist l.length pat l

theorem stripFences_sublist (text : List Char) : List.Sublist (stripFences text) text :=
  (removeAll_sublist _ _).trans (removeAll_sublist _ _)

theorem braceSpan_sublist (l : List Char) : List.Sublist (braceSpan l) l := by
  unfold braceSpan
  rcases h1 : firstIdx '{' l with _ | i
  · exact List.Sublist.refl l
  · rcases h2 : lastIdx '}' l with _ | j
    · exact List.Sublist.refl l
    · dsimp only
      by_cases hij : i < j
      · rw [if_pos hij]
        exact (List.take_sublist _ _).trans (List.drop_sublist _ _)
      · rw [if_neg hij]

theorem trimChars_sublist (l : List Char) : List.Sublist (trimChars l) l := by
  unfold trimChars
  have h1 : List.Sublist (l.dropWhile isTrimWsChar) l := List.dropWhile_sublist _
  have h2 : List.Sublist ((l.dropWhile isTrimWsChar).reverse.dropWhile isTrimWsChar)
      (l.dropWhile isTrimWsChar).reverse := List.dropWhile_sublist _
  have h3 := List.Sublist.reverse h2
  rw [List.reverse_reverse] at h3
  exact h3.trans h1

theorem scanTrunc_sublist : ∀ (fuel : ℕ) (l : List Char),
    List.Sublist (scanTrunc fuel l) l := by
  intro fuel
  induction fuel with
  | zero =>
    intro l
    cases l with
    | nil => exact List.Sublist.refl _
    | cons c t => exact List.Sublist.refl _
  | succ f ih =>
    intro l
    cases l with
    | nil => exact List.Sublist.refl _
    | cons c t =>
      simp only [scanTrunc]
      cases hm : matchTrunc (c :: t) with
      | none => exact List.Sublist.cons₂ c (ih t)
      | some kr =>
        obtain ⟨k, r⟩ := kr
        dsimp only
        obtain ⟨d1, d2, -, -, -, -, hl, hk, -⟩ := matchTrunc_some _ _ _ hm
        rw [hl, hk]
        have hinner : List.Sublist (d2.take 6 ++ scanTrunc f r) (d2 ++ r) :=
          List.Sublist.append (List.take_sublist 6 d2) (ih r)
        have : List.Sublist ('.' :: (d2.take 6 ++ scanTrunc f r)) ('.' :: (d2 ++ r)) :=
          List.Sublist.cons₂ '.' hinner
        simpa [List.append_assoc, List.cons_append] using
          List.Sublist.append (List.Sublist.refl d1) this

theorem scanSci_sublist : ∀ (fuel : ℕ) (l : List Char),
    List.Sublist (scanSci fuel l) l := by
  intro fuel
  induction fuel with
  | zero =>
    intro l
    cases l with
    | nil => exact List.Sublist.refl _
    | cons c t => exact List.Sublist.refl _
  | succ f ih =>
    intro l
    cases l with
    | nil => exact List.Sublist.refl _
    | cons c t =>
      simp only [scanSci]
      cases hm : matchSci (c :: t) with
      | none => exact List.Sublist.cons₂ c (ih t)
      | some kr =>
        obtain ⟨k, r⟩ := kr
        dsimp only
        obtain ⟨d1, d2, mid, -, -, -, -, -, -, hl, hk, -⟩ := matchSci_some _ _ _ hm
        rw [hl, hk]
        have hr : List.Sublist (scanSci f r) (mid ++ r) :=
          (ih r).trans (List.sublist_append_right mid r)
        have hinner : List.Sublist (d2.take 2 ++ scanSci f r) (d2 ++ (mid ++ r)) :=
          List.Sublist.append (List.take_sublist 2 d2) hr
        have : List.Sublist ('.' :: (d2.take 2 ++ scanSci f r)) ('.' :: (d2 ++ (mid ++ r))) :=
          List.Sublist.cons₂ '.' hinner
        simpa [List.append_assoc, List.cons_append] using
          List.Sublist.append (List.Sublist.refl d1) this

theorem cleanJson_sublist (text : List Char) : List.Sublist (cleanJson text) text := by
  unfold cleanJson normNumeric truncFrac6 fixSci
  exact ((((trimChars_sublist _).trans (scanSci_sublist _ _)).trans
    (scanTrunc_sublist _ _)).trans (braceSpan_sublist _)).trans (stripFences_sublist text)

theorem filter_digits_nil (d : List Char) (hd : ∀ a ∈ d, Char.isDigit a) :
    d.filter (fun c => !numLitChar c) = [] := by
  induction d with
  | nil => rfl
  | cons c t ih =>
    have hc : numLitChar c = true := by simp [numLitChar, hd c (by simp)]
    rw [List.filter_cons]
    simp only [hc, Bool.not_true, Bool.false_eq_true, if_false]
    exact ih (fun a ha => hd a (by simp [ha]))

theorem filter_numchars_nil (d : List Char) (hd : ∀ a ∈ d, numLitChar a) :
    d.filter (fun c => !numLitChar c) = [] := by
  induction d with
  | nil => rfl
  | cons c t ih =>
    rw [List.filter_cons]
    simp only [hd c (by simp), Bool.not_true, Bool.false_eq_true, if_false]
    exact ih (fun a ha => hd a (by simp [ha]))

theorem filter_scanTrunc : ∀ (fuel : ℕ) (l : List Char),
    (scanTrunc fuel l).filter (fun c => !numLitChar c) =
      l.filter (fun c => !numLitChar c) := by
  intro fuel
  induction fuel with
  | zero =>
    intro l
    cases l with
    | nil => rfl
    | cons c t => rfl
  | succ f ih =>
    intro l
    cases l with
    | nil => rfl
    | cons c t =>
      simp only [scanTrunc]
      cases hm : matchTrunc (c :: t) with
      | none =>
        dsimp only
        rw [List.filter_cons, List.filter_cons, ih t]
      | some kr =>
        obtain ⟨k, r⟩ := kr
        dsimp only
        obtain ⟨d1, d2, -, hdig1, hdig2, -, hl, hk, -⟩ := matchTrunc_some _ _ _ hm
        rw [hl, hk]
        have htake : ∀ a ∈ d2.take 6, Char.isDigit a :=
          fun a ha => hdig2 a (List.take_subset 6 d2 ha)
        simp only [List.filter_append, List.filter_cons, filter_digits_nil d1 hdig1,
          filter_digits_nil d2 hdig2, filter_digits_nil (d2.take 6) htake, ih r,
          List.nil_append]
        rfl

theorem filter_scanSci : ∀ (fuel : ℕ) (l : List Char),
    (scanSci fuel l).filter (fun c => !numLitChar c) =
      l.filter (fun c => !numLitChar c) := by
  intro fuel
  induction fuel with
  | zero =>
    intro l
    cases l with
    | nil => rfl
    | cons c t => rfl
  | succ f ih =>
    intro l
    cases l with
    | nil => rfl
    | cons c t =>
      simp only [scanSci]
      cases hm : matchSci (c :: t) with
      | none =>
        dsimp only
        rw [List.filter_cons, List.filter_cons, ih t]
      | some kr =>
        obtain ⟨k, r⟩ := kr
        dsimp only
        obtain ⟨d1, d2, mid, -, hdig1, -, hdig2, -, hmid, hl, hk, -⟩ :=
          matchSci_some _ _ _ hm
        rw [hl, hk]
        have htake : ∀ a ∈ d2.take 2, Char.isDigit a :=
          fun a ha => hdig2 a (List.take_subset 2 d2 ha)
        simp only [List.filter_append, List.filter_cons, filter_digits_nil d1 hdig1,
          filter_digits_nil d2 hdig2, filter_digits_nil (d2.take 2) htake,
          filter_numchars_nil mid hmid, ih r, List.nil_append]
        rfl

theorem filter_normNumeric (l : List Char) :
    (normNumeric l).filter (fun c => !numLitChar c) = l.filter (fun c => !numLitChar c) := by
  unfold normNumeric truncFrac6 fixSci
  rw [filter_scanSci, filter_scanTrunc]

-- ===========================================================================
-- Characterization of firstIdx and lastIdx
-- ===========================================================================

theorem firstIdx_isFirstOcc (c : Char) : ∀ (l : List Char) (i : ℕ),
    firstIdx c l = some i → IsFirstOcc c l i := by
  intro l
  induction l with
  | nil => intro i h; simp [firstIdx] at h
  | cons x xs ih =>
    intro i h
    simp only [firstIdx] at h
    by_cases hx : (x == c) = true
    · rw [if_pos hx] at h
      injection h with h
      subst h
      refine ⟨by simpa using beq_iff_eq.mp hx, fun k hk => absurd hk (by omega)⟩
    · rw [if_neg hx] at h
      cases hfx : firstIdx c xs with
      | none => rw [hfx] at h; simp at h
      | some i0 =>
        rw [hfx] at h
        simp only [Option.map_some', Option.some.injEq] at h
        subst h
        obtain ⟨hg, hmin⟩ := ih i0 hfx
        constructor
        · simpa using hg
        · intro k hk
          cases k with
          | zero =>
            simp only [List.get?_cons_zero, ne_eq, Option.some.injEq]
            exact fun hcc => (by simpa using hx : x ≠ c) hcc
          | succ k0 =>
            simpa using hmin k0 (by omega)

theorem isFirstOcc_firstIdx (c : Char) : ∀ (l : List Char) (i : ℕ),
    IsFirstOcc c l i → firstIdx c l = some i := by
  intro l
  induction l with
  | nil => intro i h; simp [IsFirstOcc] at h
  | cons x xs ih =>
    intro i h
    obtain ⟨hg, hmin⟩ := h
    simp only [firstIdx]
    by_cases hx : (x == c) = true
    · rw [if_pos hx]
      cases i with
      | zero => rfl
      | succ i0 =>
        exact absurd (by simpa using beq_iff_eq.mp hx : (x :: xs).get? 0 = some c)
          (hmin 0 (by omega))
    · rw [if_neg hx]
      cases i with
      | zero =>
        simp only [List.get?_cons_zero, Option.some.injEq] at hg
        exact absurd (by simpa using hg) (by simpa using hx)
      | succ i0 =>
        have hrec : IsFirstOcc c xs i0 := by
          constructor
          · simpa using hg
          · intro k hk
            have := hmin (k + 1) (by omega)
            simpa using this
        rw [ih i0 hrec]
        rfl

theorem get_some_lt (l : List Char) (i : ℕ) (c : Char) (h : l.get? i = some c) :
    i < l.length := by
  by_contra hcon
  rw [List.get?_eq_none.mpr (by omega)] at h
  exact absurd h (by simp)

theorem lastIdx_isLastOcc (c : Char) (l : List Char) (j : ℕ)
    (h : lastIdx c l = some j) : IsLastOcc c l j := by
  unfold lastIdx at h
  cases hf : firstIdx c l.reverse with
  | none => rw [hf] at h; simp at h
  | some i =>
    rw [hf] at h
    simp only [Option.map_some', Option.some.injEq] at h
    subst h
    obtain ⟨hg, hmin⟩ := firstIdx_isFirstOcc c l.reverse i hf
    have hilen : i < l.length := by
      have := get_some_lt l.reverse i c hg
      simpa using this
    constructor
    · rw [← List.get?_reverse]
      · exact hg
      · simpa using hilen
    · intro k hjk hklen hcon
      have hrev : l.reverse.get? (l.length - 1 - k) = some c := by
        rw [List.get?_reverse]
        · have hidx : l.length - 1 - (l.length - 1 - k) = k := by omega
          rw [hidx]
          exact hcon
        · simpa using (by omega : l.length - 1 - k < l.length)
      exact hmin (l.length - 1 - k) (by omega) hrev

theorem isLastOcc_lastIdx (c : Char) (l : List Char) (j : ℕ)
    (h : IsLastOcc c l j) : lastIdx c l = some j := by
  obtain ⟨hg, hmax⟩ := h
  have hjlen : j < l.length := get_some_lt l j c hg
  have hfirst : IsFirstOcc c l.reverse (l.length - 1 - j) := by
    constructor
    · rw [List.get?_reverse]
      · have hidx : l.length - 1 - (l.length - 1 - j) = j := by omega
        rw [hidx]
        exact hg
      · simpa using (by omega : l.length - 1 - j < l.length)
    · intro k hk hcon
      have hklen : k < l.length := by
        have := get_some_lt l.reverse k c hcon
        simpa using this
      rw [List.get?_reverse] at hcon
      · exact hmax (l.length - 1 - k) (by omega) (by omega) hcon
      · simpa using hklen
  unfold lastIdx
  rw [isFirstOcc_firstIdx c l.reverse (l.length - 1 - j) hfirst]
  simp only [Option.map_some', Option.some.injEq]
  omega

-- ===========================================================================
-- The reviver traversal is exactly the numeric-leaf map
-- ===========================================================================

mutual
theorem reviveTree_eq_mapNumLeaves : ∀ v : Json, reviveTree v = mapNumLeaves v
  | .jnull => rfl
  | .jbool _ => rfl
  | .jnum _ => rfl
  | .jstr _ => rfl
  | .jarr es => by
    show jsonReviver (.jarr (reviveArr es)) = .jarr (mapNumArr es)
    rw [reviveArr_eq_mapNumArr es]
    rfl
  | .jobj fs => by
    show jsonReviver (.jobj (reviveObj fs)) = .jobj (mapNumObj fs)
    rw [reviveObj_eq_mapNumObj fs]
    rfl
theorem reviveArr_eq_mapNumArr : ∀ es : JsonArr, reviveArr es = mapNumArr es
  | .anil => rfl
  | .acons v tl => by
    show JsonArr.acons (reviveTree v) (reviveArr tl) =
      JsonArr.acons (mapNumLeaves v) (mapNumArr tl)
    rw [reviveTree_eq_mapNumLeaves v, reviveArr_eq_mapNumArr tl]
theorem reviveObj_eq_mapNumObj : ∀ fs : JsonObj, reviveObj fs = mapNumObj fs
  | .onil => rfl
  | .ocons k v tl => by
    show JsonObj.ocons k (reviveTree v) (reviveObj tl) =
      JsonObj.ocons k (mapNumLeaves v) (mapNumObj tl)
    rw [reviveTree_eq_mapNumLeaves v, reviveObj_eq_mapNumObj tl]
end

theorem jsRound2_eq_specRound2_of_nonneg (q : ℚ) (h : 0 ≤ q) :
    jsRound2 q = specRound2 q := by
  unfold jsRound2 specRound2 jsMathRound awayRound
  rw [if_pos (mul_nonneg h (by norm_num))]

-- ===========================================================================
-- Values of digit strings
-- ===========================================================================

theorem digit_toNat_bounds (c : Char) (h : Char.isDigit c = true) :
    48 ≤ c.toNat ∧ c.toNat ≤ 57 := by
  simp only [Char.isDigit, Bool.and_eq_true, decide_eq_true_eq] at h
  exact h

theorem digitsVal_go (l : List Char) : ∀ n : ℕ,
    l.foldl (fun n c => 10 * n + (c.toNat - 48)) n =
      n * 10 ^ l.length + digitsVal l := by
  induction l with
  | nil => intro n; simp [digitsVal]
  | cons c t ih =>
    intro n
    have hp : digitsVal (c :: t) = (c.toNat - 48) * 10 ^ t.length + digitsVal t := by
      show (c :: t).foldl (fun n c => 10 * n + (c.toNat - 48)) 0 = _
      rw [List.foldl_cons, ih (10 * 0 + (c.toNat - 48))]
      ring_nf
    rw [List.foldl_cons, ih (10 * n + (c.toNat - 48)), hp]
    simp only [List.length_cons, pow_succ]
    ring

theorem digitsVal_append (a b : List Char) :
    digitsVal (a ++ b) = digitsVal a * 10 ^ b.length + digitsVal b := by
  unfold digitsVal
  rw [List.foldl_append]
  exact digitsVal_go b _

theorem digitsVal_lt (d : List Char) (hd : ∀ a ∈ d, Char.isDigit a) :
    digitsVal d < 10 ^ d.length := by
  induction d using List.reverseRecOn with
  | nil => simp [digitsVal]
  | append_singleton l a ih =>
    have hl := ih (fun x hx => hd x (by simp [hx]))
    have ha : a.toNat - 48 ≤ 9 := by
      have := digit_toNat_bounds a (hd a (by simp))
      omega
    rw [digitsVal_append l [a]]
    have h10 : digitsVal [a] ≤ 9 := by
      unfold digitsVal
      simp only [List.foldl_cons, List.foldl_nil]
      omega
    have hlen : (10 : ℕ) ^ ([a] : List Char).length = 10 := by norm_num
    have hlen2 : (10 : ℕ) ^ (l ++ [a]).length = 10 ^ l.length * 10 := by
      simp [pow_succ]
    rw [hlen, hlen2]
    omega

theorem pow10_zero : pow10 0 = 1 := by
  show pow10 (Int.ofNat 0) = 1
  simp [pow10]

theorem parseNumMag_eval (d1 d2 : List Char) (hd1 : d1 ≠ [])
    (h1 : ∀ a ∈ d1, Char.isDigit a) (hd2 : d2 ≠ []) (h2 : ∀ a ∈ d2, Char.isDigit a)
    (hz : d1 = ['0'] ∨ d1.head? ≠ some '0') :
    parseNumMag (d1 ++ '.' :: d2) =
      some ((digitsVal d1 : ℚ) + (digitsVal d2 : ℚ) / ((10 ^ d2.length : ℕ) : ℚ), []) := by
  obtain ⟨ht, hdp⟩ := takeWhile_digits_append d1 ('.' :: d2) h1 (head_dot_not_digit d2)
  obtain ⟨ht2, hd2p⟩ := takeWhile_digits_append d2 [] h2 (by intro a ha; simp at ha)
  rw [List.append_nil] at ht2 hd2p
  have hne : d1.isEmpty = false := by
    cases d1 with
    | nil => exact absurd rfl hd1
    | cons c cs => rfl
  have hne2 : d2.isEmpty = false := by
    cases d2 with
    | nil => exact absurd rfl hd2
    | cons c cs => rfl
  unfold parseNumMag
  rw [ht, hdp]
  dsimp only
  rw [hne]
  simp only [Bool.false_eq_true, if_false]
  rw [if_neg (by
    rcases hz with hz | hz
    · subst hz; simp
    · intro hcon; exact hz hcon.2)]
  unfold parseFracPart
  have hdot : (('.' :: d2) : List Char).head? = some '.' := rfl
  rw [if_pos hdot]
  dsimp only [List.tail_cons]
  rw [ht2, hne2, hd2p]
  simp only [Bool.false_eq_true, if_false]
  unfold parseExpPart
  rw [if_neg (by simp)]
  dsimp only
  rw [pow10_zero, mul_one]

theorem parseNumber_eval (neg : Bool) (d1 d2 : List Char) (hd1 : d1 ≠ [])
    (h1 : ∀ a ∈ d1, Char.isDigit a) (hd2 : d2 ≠ []) (h2 : ∀ a ∈ d2, Char.isDigit a)
    (hz : d1 = ['0'] ∨ d1.head? ≠ some '0') :
    parseNumber (renderTok (JTok.num neg d1 (some d2) none)) =
      some (litVal neg d1 d2, []) := by
  have hshape : renderTok (JTok.num neg d1 (some d2) none) =
      (if neg then ['-'] else []) ++ (d1 ++ '.' :: d2) := by
    cases neg <;> simp [renderTok, renderFrac, renderSci]
  rw [hshape]
  unfold parseNumber
  cases neg with
  | false =>
    simp only [Bool.false_eq_true, if_false, List.nil_append]
    have hhead : ¬ ((d1 ++ '.' :: d2).head? = some '-') := by
      cases d1 with
      | nil => exact absurd rfl hd1
      | cons c cs =>
        simp only [List.cons_append, List.head?_cons, Option.some.injEq]
        intro hc
        have hcd := h1 c (by simp)
        rw [hc] at hcd
        exact absurd hcd (by decide)
    rw [if_neg hhead, parseNumMag_eval d1 d2 hd1 h1 hd2 h2 hz]
    dsimp only
    simp only [decide_eq_false hhead, Bool.false_eq_true, if_false]
    unfold litVal
    rw [if_neg (by simp)]
    rw [one_mul]
  | true =>
    simp only [if_pos trivial, List.cons_append, List.nil_append, List.tail_cons]
    have hhead : (('-' :: (d1 ++ '.' :: d2)) : List Char).head? = some '-' := rfl
    rw [if_pos hhead]
    rw [parseNumMag_eval d1 d2 hd1 h1 hd2 h2 hz]
    dsimp only
    simp only [decide_eq_true hhead, if_pos trivial]
    unfold litVal
    norm_num

-- ===========================================================================
-- Rounding arithmetic
-- ===========================================================================

-- Rounding half-up is blind to perturbations inside one 1/10^4 cell whose
-- left end is on the grid: the tie boundaries all lie on the grid.
theorem floor_half_trunc (n : ℤ) (y : ℚ)
    (h1 : (n : ℚ) / 10000 ≤ y) (h2 : y < ((n : ℚ) + 1) / 10000) :
    ⌊y + 1 / 2⌋ = ⌊(n : ℚ) / 10000 + 1 / 2⌋ := by
  have hlow : ⌊(n : ℚ) / 10000 + 1 / 2⌋ ≤ ⌊y + 1 / 2⌋ :=
    Int.floor_le_floor (by linarith)
  have hfl : (n : ℚ) / 10000 + 1 / 2 < (⌊(n : ℚ) / 10000 + 1 / 2⌋ : ℚ) + 1 :=
    Int.lt_floor_add_one _
  have h3 : (n : ℚ) + 5000 < 10000 * ((⌊(n : ℚ) / 10000 + 1 / 2⌋ : ℚ) + 1) := by
    linarith
  have h4 : n + 5000 < 10000 * (⌊(n : ℚ) / 10000 + 1 / 2⌋ + 1) := by
    exact_mod_cast h3
  have h5 : n + 1 + 5000 ≤ 10000 * (⌊(n : ℚ) / 10000 + 1 / 2⌋ + 1) := by omega
  have h6 : ((n : ℚ) + 1) + 5000 ≤ 10000 * ((⌊(n : ℚ) / 10000 + 1 / 2⌋ : ℚ) + 1) := by
    exact_mod_cast h5
  have hup : ⌊y + 1 / 2⌋ < ⌊(n : ℚ) / 10000 + 1 / 2⌋ + 1 := by
    apply Int.floor_lt.mpr
    push_cast
    linarith
  omega

-- Rounding half-up at c and at -c lands within one unit of an exact
-- reflection; the slack 1 is attained exactly at the ties.
theorem floor_half_pair (c : ℚ) :
    |((⌊-c + 1 / 2⌋ : ℤ) : ℚ) + ((⌊c + 1 / 2⌋ : ℤ) : ℚ)| ≤ 1 := by
  have ha1 : ((⌊c + 1 / 2⌋ : ℤ) : ℚ) ≤ c + 1 / 2 := Int.floor_le _
  have ha2 : c + 1 / 2 < ((⌊c + 1 / 2⌋ : ℤ) : ℚ) + 1 := Int.lt_floor_add_one _
  have hb1 : ((⌊-c + 1 / 2⌋ : ℤ) : ℚ) ≤ -c + 1 / 2 := Int.floor_le _
  have hb2 : -c + 1 / 2 < ((⌊-c + 1 / 2⌋ : ℤ) : ℚ) + 1 := Int.lt_floor_add_one _
  rw [abs_le]
  constructor <;> linarith

theorem awayRound_neg (z : ℚ) (hz : 0 ≤ z) : awayRound (-z) = -⌊z + 1 / 2⌋ := by
  rcases lt_or_eq_of_le hz with hpos | hzero
  · unfold awayRound
    rw [if_neg (by linarith), neg_neg]
  · subst hzero
    unfold awayRound
    norm_num

theorem litVal_neg_eq (d1 d2 : List Char) :
    litVal true d1 d2 = -litVal false d1 d2 := by
  unfold litVal
  norm_num

theorem litVal_nonneg (d1 d2 : List Char) : 0 ≤ litVal false d1 d2 := by
  unfold litVal
  rw [if_neg (by simp), one_mul]
  have h1 : (0 : ℚ) ≤ (digitsVal d1 : ℚ) := by positivity
  have h2 : (0 : ℚ) ≤ (digitsVal d2 : ℚ) / ((10 ^ d2.length : ℕ) : ℚ) := by positivity
  linarith

theorem floor_litVal_trunc (d1 d2 : List Char) (h2 : ∀ a ∈ d2, Char.isDigit a) :
    ⌊100 * litVal false d1 d2 + 1 / 2⌋ =
      ⌊100 * litVal false d1 (if 6 < d2.length then d2.take 6 else d2) + 1 / 2⌋ := by
  by_cases hk : 6 < d2.length
  · rw [if_pos hk]
    have hsplit := digitsVal_append (d2.take 6) (d2.drop 6)
    rw [List.take_append_drop] at hsplit
    have hdroplen : (d2.drop 6).length = d2.length - 6 := List.length_drop 6 d2
    have htakelen : (d2.take 6).length = 6 := by
      rw [List.length_take]
      omega
    have hR : digitsVal (d2.drop 6) < 10 ^ (d2.length - 6) := by
      rw [← hdroplen]
      exact digitsVal_lt (d2.drop 6) (fun a ha => h2 a ((List.drop_sublist 6 d2).subset ha))
    have hkk : (10 : ℚ) ^ d2.length = 10 ^ (d2.length - 6) * 10 ^ 6 := by
      rw [← pow_add]
      congr 1
      omega
    have hx : 100 * litVal false d1 d2 =
        (((10 ^ 6 * digitsVal d1 + digitsVal (d2.take 6) : ℕ) : ℚ)) / 10000 +
          100 * ((digitsVal (d2.drop 6) : ℕ) : ℚ) / ((10 : ℚ) ^ d2.length) := by
      unfold litVal
      rw [if_neg (by simp), one_mul, hsplit, hdroplen]
      push_cast
      rw [hkk]
      have hden : ((10 : ℚ) ^ (d2.length - 6)) ≠ 0 := by positivity
      field_simp
      ring
    have hqt : (((10 ^ 6 * digitsVal d1 + digitsVal (d2.take 6) : ℕ) : ℚ)) / 10000 =
        100 * litVal false d1 (d2.take 6) := by
      unfold litVal
      rw [if_neg (by simp), one_mul, htakelen]
      push_cast
      field_simp
      ring
    have hRq : ((digitsVal (d2.drop 6) : ℕ) : ℚ) < (10 : ℚ) ^ (d2.length - 6) := by
      exact_mod_cast hR
    have hsmall : 100 * ((digitsVal (d2.drop 6) : ℕ) : ℚ) / ((10 : ℚ) ^ d2.length) <
        1 / 10000 := by
      rw [hkk, div_lt_div_iff (by positivity) (by norm_num)]
      nlinarith [hRq, pow_pos (show (0 : ℚ) < 10 by norm_num) (d2.length - 6)]
    have hRnn : (0 : ℚ) ≤ 100 * ((digitsVal (d2.drop 6) : ℕ) : ℚ) /
        ((10 : ℚ) ^ d2.length) := by positivity
    have hfloor := floor_half_trunc ((10 ^ 6 * digitsVal d1 + digitsVal (d2.take 6) : ℕ) : ℤ)
      (100 * litVal false d1 d2)
      (by push_cast; push_cast at hx; linarith)
      (by push_cast; push_cast at hx; linarith)
    rw [hfloor]
    congr 1
    rw [← hqt]
    push_cast
    ring_nf
  · rw [if_neg hk]

-- The numeric normalization of a single well-formed token is the two
-- per-token rewrites in sequence.
theorem normNumeric_single_tok (t : JTok) (h : wfTok t = true) :
    normNumeric (renderTok t) = renderTok (sciTok (truncTok t)) := by
  have e1 : renderToks [t] = renderTok t := by simp [renderToks]
  have e2 : renderToks [truncTok t] = renderTok (truncTok t) := by simp [renderToks]
  have e3 : renderToks [sciTok (truncTok t)] = renderTok (sciTok (truncTok t)) := by
    simp [renderToks]
  have hw1 : wfToks [t] = true := h
  have hw2 : wfToks [truncTok t] = true := wfTok_truncTok t h
  unfold normNumeric
  rw [← e1, truncFrac6_renderToks [t] hw1]
  show fixSci (renderToks [truncTok t]) = _
  rw [fixSci_renderToks [truncTok t] hw2]
  exact e3

-- Full numeric pipeline on one decimal literal: normalization truncates the
-- fractional tail to 6 digits, the parse is exact, the reviver rounds.
theorem decodeNumLit_eval (neg : Bool) (d1 d2 : List Char) (hd1 : d1 ≠ [])
    (h1 : ∀ a ∈ d1, Char.isDigit a) (hd2 : d2 ≠ []) (h2 : ∀ a ∈ d2, Char.isDigit a)
    (hz : d1 = ['0'] ∨ d1.head? ≠ some '0') :
    decodeNumLit (renderTok (JTok.num neg d1 (some d2) none)) =
      some (jsRound2 (litVal neg d1 (if 6 < d2.length then d2.take 6 else d2))) := by
  have hie1 : d1.isEmpty = false := by
    cases d1 with
    | nil => exact absurd rfl hd1
    | cons c cs => rfl
  have hie2 : d2.isEmpty = false := by
    cases d2 with
    | nil => exact absurd rfl hd2
    | cons c cs => rfl
  have hwf : wfTok (JTok.num neg d1 (some d2) none) = true := by
    simp only [wfTok, wfFrac, wfSci, allDigits, Bool.and_eq_true, Bool.not_eq_true',
      List.all_eq_true, decide_eq_true_eq]
    exact ⟨⟨⟨hie1, fun a ha => h1 a ha⟩, hie2, fun a ha => h2 a ha⟩, trivial⟩
  have he2ne : (if 6 < d2.length then d2.take 6 else d2) ≠ [] := by
    by_cases hk : 6 < d2.length
    · rw [if_pos hk]
      intro hcon
      have := congrArg List.length hcon
      rw [List.length_take] at this
      simp only [List.length_nil] at this
      omega
    · rw [if_neg hk]; exact hd2
  have he2dig : ∀ a ∈ (if 6 < d2.length then d2.take 6 else d2), Char.isDigit a := by
    by_cases hk : 6 < d2.length
    · rw [if_pos hk]
      exact fun a ha => h2 a ((List.take_sublist 6 d2).subset ha)
    · rw [if_neg hk]; exact h2
  unfold decodeNumLit
  rw [normNumeric_single_tok _ hwf]
  have hst : sciTok (truncTok (JTok.num neg d1 (some d2) none)) =
      JTok.num neg d1 (some (if 6 < d2.length then d2.take 6 else d2)) none := rfl
  rw [hst, parseNumber_eval neg d1 _ hd1 h1 he2ne he2dig hz]
  rfl

-- ===========================================================================
-- Claim theorems
-- ===========================================================================

/-- C1: the span cleanJson hands to the numeric normalizer and the parser is
bounded by the first '{' and the last '}' of the fence-stripped text whenever
both exist and the last brace comes strictly after the first brace, even when
that span crosses unrelated brace pairs; in every other case the whole
fence-stripped text is used, trimmed of surrounding whitespace. -/
theorem cleanJson_selects_first_to_last_brace_span (text : List Char) :
    (∀ i j, IsFirstOcc '{' (stripFences text) i → IsLastOcc '}' (stripFences text) j →
      i < j →
      cleanJson text =
        trimChars (normNumeric (((stripFences text).drop i).take (j + 1 - i)))) ∧
    ((∀ i j, ¬(IsFirstOcc '{' (stripFences text) i ∧ IsLastOcc '}' (stripFences text) j ∧
        i < j)) →
      cleanJson text = trimChars (normNumeric (stripFences text))) := by
  constructor
  · intro i j hfi hlj hij
    have hf : firstIdx '{' (stripFences text) = some i := isFirstOcc_firstIdx _ _ _ hfi
    have hl : lastIdx '}' (stripFences text) = some j := isLastOcc_lastIdx _ _ _ hlj
    have hb : braceSpan (stripFences text) =
        ((stripFences text).drop i).take (j + 1 - i) := by
      unfold braceSpan
      rw [hf, hl]
      dsimp only
      rw [if_pos hij]
    unfold cleanJson
    rw [hb]
  · intro hno
    have hb : braceSpan (stripFences text) = stripFences text := by
      unfold braceSpan
      cases hf : firstIdx '{' (stripFences text) with
      | none => rfl
      | some i =>
        cases hl : lastIdx '}' (stripFences text) with
        | none => rfl
        | some j =>
          dsimp only
          rw [if_neg (fun hij => hno i j
            ⟨firstIdx_isFirstOcc _ _ _ hf, lastIdx_isLastOcc _ _ _ hl, hij⟩)]
    unfold cleanJson
    rw [hb]

theorem cleanJson_selects_first_to_last_brace_span_witness :
    cleanJson ("a\x7bb\x7dc".toList) =
      trimChars (normNumeric (((stripFences ("a\x7bb\x7dc".toList)).drop 1).take
        (3 + 1 - 1))) := by
  apply (cleanJson_selects_first_to_last_brace_span ("a\x7bb\x7dc".toList)).1 1 3
  · exact ⟨by decide, by decide⟩
  · refine ⟨by decide, ?_⟩
    intro k hk1 hk2
    have hlen : k < 5 := by simpa using hk2
    have hk4 : k = 4 := by omega
    subst hk4
    decide
  · omega

/-- C2 counterexample: the reviver's rounding is Math.round, which sends ties
toward positive infinity, not away from zero: the numeric leaf -0.125 becomes
-0.12, while rounding half away from zero as the specification states would
give -0.13. -/
theorem reviver_not_half_away_on_neg_counterexample :
    reviveTree (Json.jnum (-(1 / 8))) = Json.jnum (jsRound2 (-(1 / 8))) ∧
    jsRound2 (-(1 / 8)) = -(12 / 100) ∧
    specRound2 (-(1 / 8)) = -(13 / 100) ∧
    ((-(12 / 100) : ℚ) ≠ -(13 / 100)) := by
  refine ⟨rfl, ?_, ?_, by norm_num⟩
  · unfold jsRound2 jsMathRound
    norm_num
  · unfold specRound2 awayRound
    rw [if_neg (by norm_num)]
    norm_num

/-- C2 (corrected): while materializing the tree the reviver rounds every
numeric leaf to 2 decimal places with Math.round on the value times 100, then
divides by 100; Math.round sends ties toward positive infinity (floor of the
argument plus one half), which agrees with round-half-away-from-zero on
nonnegative values but not on negative ties; non-numeric leaves and the
structural shape are unchanged. -/
theorem reviveTree_rounds_leaves_half_up :
    (∀ v : Json, reviveTree v = mapNumLeaves v) ∧
    (∀ q : ℚ, jsRound2 q = ((⌊q * 100 + 1 / 2⌋ : ℤ) : ℚ) / 100) ∧
    (∀ q : ℚ, 0 ≤ q → jsRound2 q = specRound2 q) :=
  ⟨reviveTree_eq_mapNumLeaves, fun _ => rfl, jsRound2_eq_specRound2_of_nonneg⟩

theorem reviveTree_rounds_leaves_half_up_witness :
    reviveTree (Json.jnum (1 / 8)) = mapNumLeaves (Json.jnum (1 / 8)) ∧
    jsRound2 (1 / 8) = specRound2 (1 / 8) :=
  ⟨reviveTree_rounds_leaves_half_up.1 (Json.jnum (1 / 8)),
   reviveTree_rounds_leaves_half_up.2.2 (1 / 8) (by norm_num)⟩

/-- C3: on any text whose numeric material forms well-separated literals, the
decimal-tail rewrite sends every literal to its truncated form: a fractional
part longer than 6 digits is cut to its first 6 digits (discarding, not
rounding, the excess), and literals with 6 or fewer fractional digits, or no
fractional part, are unchanged. -/
theorem truncFrac6_truncates_long_decimals :
    (∀ ts : List JTok, wfToks ts = true →
      truncFrac6 (renderToks ts) = renderToks (ts.map truncTok)) ∧
    (∀ neg d1 d2 sci, 6 < d2.length →
      truncTok (JTok.num neg d1 (some d2) sci) =
        JTok.num neg d1 (some (d2.take 6)) sci) ∧
    (∀ neg d1 d2 sci, d2.length ≤ 6 →
      truncTok (JTok.num neg d1 (some d2) sci) = JTok.num neg d1 (some d2) sci) ∧
    (∀ neg d1 sci, truncTok (JTok.num neg d1 none sci) = JTok.num neg d1 none sci) := by
  refine ⟨truncFrac6_renderToks, ?_, ?_, fun neg d1 sci => rfl⟩
  · intro neg d1 d2 sci h
    simp [truncTok, if_pos h]
  · intro neg d1 d2 sci h
    simp [truncTok, if_neg (not_lt.mpr h)]

theorem truncFrac6_truncates_long_decimals_witness :
    truncFrac6 ("[1.2345678,3.14]".toList) = "[1.234567,3.14]".toList := by
  have h := truncFrac6_truncates_long_decimals.1
    [JTok.sep '[', JTok.num false ['1'] (some ['2','3','4','5','6','7','8']) none,
     JTok.sep ',', JTok.num false ['3'] (some ['1','4']) none, JTok.sep ']']
    (by decide)
  have e1 : renderToks
      [JTok.sep '[', JTok.num false ['1'] (some ['2','3','4','5','6','7','8']) none,
       JTok.sep ',', JTok.num false ['3'] (some ['1','4']) none, JTok.sep ']'] =
      "[1.2345678,3.14]".toList := by decide
  have e2 : renderToks
      ([JTok.sep '[', JTok.num false ['1'] (some ['2','3','4','5','6','7','8']) none,
        JTok.sep ',', JTok.num false ['3'] (some ['1','4']) none,
        JTok.sep ']'].map truncTok) = "[1.234567,3.14]".toList := by decide
  rw [e1, e2] at h
  exact h

unseal Rat.add Rat.mul Rat.inv Rat.sub in
/-- C4: on any text whose numeric material forms well-separated literals, the
scientific-notation rewrite replaces every literal that has both a fractional
mantissa and an e/E exponent part by its mantissa cut to at most 2 fractional
digits with the exponent discarded, and leaves literals without a fractional
mantissa or without an exponent part unchanged; in particular the input
"\x7b\"weight\": 5.0000000000000018e+00\x7d" decodes to an object whose weight
field is exactly 5. -/
theorem fixSci_reduces_sci_literals :
    (∀ ts : List JTok, wfToks ts = true →
      fixSci (renderToks ts) = renderToks (ts.map sciTok)) ∧
    (∀ neg d1 d2 s, sciTok (JTok.num neg d1 (some d2) (some s)) =
      JTok.num neg d1 (some (d2.take 2)) none) ∧
    (∀ neg d1 s, sciTok (JTok.num neg d1 none s) = JTok.num neg d1 none s) ∧
    (∀ neg d1 d2, sciTok (JTok.num neg d1 (some d2) none) =
      JTok.num neg d1 (some d2) none) ∧
    (∃ v, parseJson (cleanJson ("\x7b\"weight\": 5.0000000000000018e+00\x7d".toList)) =
        .ok v ∧
      reviveTree v = Json.jobj (.ocons ("weight".toList) (Json.jnum 5) .onil)) := by
  refine ⟨fixSci_renderToks, fun neg d1 d2 s => rfl, ?_, fun neg d1 d2 => rfl,
    Json.jobj (.ocons ("weight".toList) (Json.jnum 5) .onil), rfl, rfl⟩
  intro neg d1 s
  cases s <;> rfl

theorem fixSci_reduces_sci_literals_witness :
    fixSci ("[1.555e+2]".toList) = "[1.55]".toList := by
  have h := fixSci_reduces_sci_literals.1
    [JTok.sep '[', JTok.num false ['1'] (some ['5','5','5']) (some ⟨'e', ['+'], ['2']⟩),
     JTok.sep ']'] (by decide)
  have e1 : renderToks
      [JTok.sep '[', JTok.num false ['1'] (some ['5','5','5']) (some ⟨'e', ['+'], ['2']⟩),
       JTok.sep ']'] = "[1.555e+2]".toList := by decide
  have e2 : renderToks
      ([JTok.sep '[', JTok.num false ['1'] (some ['5','5','5'])
          (some ⟨'e', ['+'], ['2']⟩), JTok.sep ']'].map sciTok) =
      "[1.55]".toList := by decide
  rw [e1, e2] at h
  exact h

/-- C5: whenever the sanitized form of a nonempty raw model text fails to
parse as JSON, rubric generation and submission evaluation both fail with a
DecodeFailure that carries the unmodified raw text together with the parser's
error detail, and each failure bears its operation-specific caller-facing
message: "Failed to parse rubric structure. Please try again." for rubric
generation and "Failed to parse evaluation result. The model may have been
interrupted or produced invalid JSON." for submission evaluation. -/
theorem decode_failure_carries_raw_and_message (t : List Char) (hne : t ≠ [])
    (d : List Char) (hfail : parseJson (cleanJson t) = .error d) :
    generateRubricFromText (some t) =
      .error (.decodeFailure ⟨t, d, rubricParseMsg⟩) ∧
    evaluateSubmission (some t) =
      .error (.decodeFailure ⟨t, d, evalParseMsg⟩) := by
  have hie : t.isEmpty = false := by
    cases t with
    | nil => exact absurd rfl hne
    | cons c cs => rfl
  constructor
  · unfold generateRubricFromText
    dsimp only
    rw [hie]
    simp only [Bool.false_eq_true, if_false]
    rw [hfail]
  · unfold evaluateSubmission
    dsimp only
    rw [hie]
    simp only [Bool.false_eq_true, if_false]
    rw [hfail]

theorem decode_failure_carries_raw_and_message_witness :
    generateRubricFromText (some ("no json here".toList)) =
      .error (.decodeFailure
        ⟨"no json here".toList, "Unexpected token in JSON".toList, rubricParseMsg⟩) ∧
    evaluateSubmission (some ("no json here".toList)) =
      .error (.decodeFailure
        ⟨"no json here".toList, "Unexpected token in JSON".toList, evalParseMsg⟩) :=
  decode_failure_carries_raw_and_message ("no json here".toList) (by decide)
    ("Unexpected token in JSON".toList) rfl

/-- C6: analyzeCodeRepository never propagates a failure to its caller: its
result is either a parsed analysis or a degraded record, an upstream call
failure, a missing or empty response and a parse failure each produce the
degraded record, and the degraded record has status "failed", score 0 out of
a maximum of 10, no evidence, the given repository URL, the fixed failure
summary and a human-readable error message. -/
theorem analyzeCodeRepository_degrades_on_failure :
    (∀ repoUrl rubric outcome,
      (∃ v, analyzeCodeRepository repoUrl rubric outcome = .parsed v) ∨
      (∃ msg, analyzeCodeRepository repoUrl rubric outcome =
        .degraded (failedAnalysis repoUrl msg))) ∧
    (∀ repoUrl rubric msg, analyzeCodeRepository repoUrl rubric (.callFailure msg) =
      .degraded (failedAnalysis repoUrl msg)) ∧
    (∀ repoUrl rubric, analyzeCodeRepository repoUrl rubric (.response none) =
      .degraded (failedAnalysis repoUrl codeAnalysisEmptyMsg)) ∧
    (∀ repoUrl rubric, analyzeCodeRepository repoUrl rubric (.response (some [])) =
      .degraded (failedAnalysis repoUrl codeAnalysisEmptyMsg)) ∧
    (∀ repoUrl rubric t d, parseJson (cleanJson t) = .error d → t ≠ [] →
      analyzeCodeRepository repoUrl rubric (.response (some t)) =
        .degraded (failedAnalysis repoUrl d)) ∧
    (∀ repoUrl msg, failedAnalysis repoUrl msg =
      { repo_url := repoUrl, summary := codeAnalysisFailSummary,
        implementation_score := 0, max_score := 10, evidence := .anil,
        status := "failed".toList, error_message := msg }) := by
  have hsome : ∀ repoUrl rubric t d, parseJson (cleanJson t) = .error d → t ≠ [] →
      analyzeCodeRepository repoUrl rubric (.response (some t)) =
        .degraded (failedAnalysis repoUrl d) := by
    intro repoUrl rubric t d hfail hne
    have hie : t.isEmpty = false := by
      cases t with
      | nil => exact absurd rfl hne
      | cons c cs => rfl
    unfold analyzeCodeRepository
    dsimp only
    rw [hie]
    simp only [Bool.false_eq_true, if_false]
    rw [hfail]
  refine ⟨?_, fun repoUrl rubric msg => rfl, fun repoUrl rubric => rfl,
    fun repoUrl rubric => rfl, hsome, fun repoUrl msg => rfl⟩
  intro repoUrl rubric outcome
  cases outcome with
  | callFailure msg => exact Or.inr ⟨msg, rfl⟩
  | response t =>
    cases t with
    | none => exact Or.inr ⟨codeAnalysisEmptyMsg, rfl⟩
    | some t =>
      cases hie : t.isEmpty with
      | true =>
        right
        refine ⟨codeAnalysisEmptyMsg, ?_⟩
        unfold analyzeCodeRepository
        dsimp only
        rw [hie]
        rfl
      | false =>
        cases hp : parseJson (cleanJson t) with
        | ok v =>
          left
          refine ⟨reviveTree v, ?_⟩
          unfold analyzeCodeRepository
          dsimp only
          rw [hie]
          simp only [Bool.false_eq_true, if_false]
          rw [hp]
        | error d =>
          right
          refine ⟨d, ?_⟩
          unfold analyzeCodeRepository
          dsimp only
          rw [hie]
          simp only [Bool.false_eq_true, if_false]
          rw [hp]

theorem analyzeCodeRepository_degrades_on_failure_witness :
    analyzeCodeRepository ("https://example.com/r".toList) Json.jnull
        (.response (some ("not an analysis".toList))) =
      .degraded (failedAnalysis ("https://example.com/r".toList)
        ("Unexpected token in JSON".toList)) :=
  analyzeCodeRepository_degrades_on_failure.2.2.2.2.1
    ("https://example.com/r".toList) Json.jnull ("not an analysis".toList)
    ("Unexpected token in JSON".toList) rfl (by decide)

/-- C7 counterexample: numeric normalization is not idempotent. On the text
"1.5e2e3" the scientific-notation rewrite consumes "1.5e2" and leaves "e3"
glued to the reduced mantissa, producing "1.5e3", which the second
application rewrites again to "1.5". The failure reaches well-formed JSON:
the rewrites see only raw text, so they also rewrite the inside of string
values, and the valid JSON text \x7b"k":"1.5e2e3"\x7d goes to
\x7b"k":"1.5e3"\x7d and then to \x7b"k":"1.5"\x7d. -/
theorem normNumeric_not_idempotent_counterexample :
    normNumeric ("1.5e2e3".toList) = "1.5e3".toList ∧
    normNumeric ("1.5e3".toList) = "1.5".toList ∧
    normNumeric (normNumeric ("1.5e2e3".toList)) ≠ normNumeric ("1.5e2e3".toList) ∧
    normNumeric ("\x7b\"k\":\"1.5e2e3\"\x7d".toList) = "\x7b\"k\":\"1.5e3\"\x7d".toList ∧
    normNumeric ("\x7b\"k\":\"1.5e3\"\x7d".toList) = "\x7b\"k\":\"1.5\"\x7d".toList ∧
    normNumeric (normNumeric ("\x7b\"k\":\"1.5e2e3\"\x7d".toList)) ≠
      normNumeric ("\x7b\"k\":\"1.5e2e3\"\x7d".toList) := by
  refine ⟨by decide, by decide, by decide, by decide, by decide, by decide⟩

/-- C7 (corrected): numeric normalization is idempotent on every text whose
digit, dot and exponent characters form well-separated numeric literals; it
is not idempotent in general, not even on well-formed JSON texts, because
the rewrites operate on raw text (the inside of string values included) and
the residue of a rewritten scientific literal can merge with adjacent
characters into a new literal. -/
theorem normNumeric_idempotent_on_wellformed (ts : List JTok)
    (h : wfToks ts = true) :
    normNumeric (normNumeric (renderToks ts)) = normNumeric (renderToks ts) := by
  have hw1 : wfToks (ts.map truncTok) = true :=
    wfToks_map truncTok wfTok_truncTok isNumTok_truncTok ts h
  have hw2 : wfToks ((ts.map truncTok).map sciTok) = true :=
    wfToks_map sciTok wfTok_sciTok isNumTok_sciTok (ts.map truncTok) hw1
  have hw3 : wfToks (((ts.map truncTok).map sciTok).map truncTok) = true :=
    wfToks_map truncTok wfTok_truncTok isNumTok_truncTok _ hw2
  have h1 : normNumeric (renderToks ts) = renderToks ((ts.map truncTok).map sciTok) := by
    unfold normNumeric
    rw [truncFrac6_renderToks ts h, fixSci_renderToks (ts.map truncTok) hw1]
  rw [h1]
  unfold normNumeric
  rw [truncFrac6_renderToks _ hw2, fixSci_renderToks _ hw3]
  rw [List.map_map, List.map_map, List.map_map]
  congr 1
  rw [List.map_map]
  apply List.map_congr_left
  intro t _
  simp only [Function.comp_apply]
  exact sciTok_truncTok_idem t

theorem normNumeric_idempotent_on_wellformed_witness :
    normNumeric (normNumeric ("1.23456789E5".toList)) =
      normNumeric ("1.23456789E5".toList) := by
  have h := normNumeric_idempotent_on_wellformed
    [JTok.num false ['1'] (some ['2','3','4','5','6','7','8','9'])
      (some ⟨'E', [], ['5']⟩)] (by decide)
  have e1 : renderToks
      [JTok.num false ['1'] (some ['2','3','4','5','6','7','8','9'])
        (some ⟨'E', [], ['5']⟩)] = "1.23456789E5".toList := by decide
  rw [e1] at h
  exact h

/-- C8: sanitization never fabricates content: the sanitized text is always a
subsequence of the input (fence stripping, span extraction, numeric
normalization and trimming only remove characters), and numeric normalization
changes no character outside numeric literal material: the subsequence of
characters that are not digits, not e, E, + or - (and in particular every
dot) is exactly preserved. -/
theorem cleanJson_no_fabrication :
    (∀ text, List.Sublist (cleanJson text) text) ∧
    (∀ l, (normNumeric l).filter (fun c => !numLitChar c) =
      l.filter (fun c => !numLitChar c)) :=
  ⟨cleanJson_sublist, filter_normNumeric⟩

unseal Rat.add Rat.mul Rat.inv Rat.sub in
/-- C9 counterexample: a numeric literal in scientific notation is not decoded
to within 0.005 of its mathematically rounded value: the literal "1.5e2"
denotes 150 (its 2-decimal rounding is 150), but the normalizer rewrites it to
"1.5", so the decoded leaf is 1.5, off by 148.5. -/
theorem decoded_leaf_sci_not_close_counterexample :
    decodeNumLit ("1.5e2".toList) = some (3 / 2) ∧
    specRound2 150 = 150 ∧
    ¬(|(3 / 2 : ℚ) - 150| ≤ 1 / 200) := by
  refine ⟨by decide, ?_, ?_⟩
  · unfold specRound2 awayRound
    rw [if_pos (by norm_num)]
    norm_num
  · intro hcon
    rw [abs_le] at hcon
    obtain ⟨ha, hb⟩ := hcon
    linarith

/-- C9 (corrected): for every plain decimal literal, with any number of
fractional digits (including more than 20), the decoded numeric leaf is within
0.01 of the mathematically rounded-to-2-decimals value of the literal;
nonnegative decimal literals decode exactly to that rounded value, the 0.01
slack arising only for negative literals at a rounding tie. Literals in
scientific notation are not decoded to within 0.005 of their rounded value
(the exponent is discarded). -/
theorem decoded_leaf_accuracy_decimal (neg : Bool) (d1 d2 : List Char)
    (hd1 : d1 ≠ []) (h1 : ∀ a ∈ d1, Char.isDigit a)
    (hd2 : d2 ≠ []) (h2 : ∀ a ∈ d2, Char.isDigit a)
    (hz : d1 = ['0'] ∨ d1.head? ≠ some '0') :
    ∃ v, decodeNumLit (renderTok (JTok.num neg d1 (some d2) none)) = some v ∧
      |v - specRound2 (litVal neg d1 d2)| ≤ 1 / 100 ∧
      (neg = false → v = specRound2 (litVal neg d1 d2)) := by
  refine ⟨_, decodeNumLit_eval neg d1 d2 hd1 h1 hd2 h2 hz, ?_⟩
  have hfl : ⌊100 * litVal false d1 d2 + 1 / 2⌋ =
      ⌊100 * litVal false d1 (if 6 < d2.length then d2.take 6 else d2) + 1 / 2⌋ :=
    floor_litVal_trunc d1 d2 h2
  have hfl' : ⌊litVal false d1 d2 * 100 + 1 / 2⌋ =
      ⌊litVal false d1 (if 6 < d2.length then d2.take 6 else d2) * 100 + 1 / 2⌋ := by
    rw [mul_comm (litVal false d1 d2) 100,
      mul_comm (litVal false d1 (if 6 < d2.length then d2.take 6 else d2)) 100]
    exact hfl
  have hxnn : 0 ≤ litVal false d1 d2 := litVal_nonneg d1 d2
  cases neg with
  | false =>
    have hv : jsRound2 (litVal false d1 (if 6 < d2.length then d2.take 6 else d2)) =
        specRound2 (litVal false d1 d2) := by
      unfold jsRound2 specRound2 jsMathRound awayRound
      rw [if_pos (mul_nonneg hxnn (by norm_num))]
      rw [← hfl']
    refine ⟨by rw [hv]; simp, fun _ => hv⟩
  | true =>
    refine ⟨?_, fun hcon => Bool.noConfusion hcon⟩
    rw [litVal_neg_eq, litVal_neg_eq]
    unfold jsRound2 specRound2 jsMathRound
    rw [neg_mul, neg_mul, awayRound_neg (litVal false d1 d2 * 100)
      (mul_nonneg hxnn (by norm_num)), hfl']
    have hp := floor_half_pair
      (litVal false d1 (if 6 < d2.length then d2.take 6 else d2) * 100)
    rw [abs_le] at hp ⊢
    obtain ⟨hp1, hp2⟩ := hp
    push_cast
    constructor <;> linarith

theorem decoded_leaf_accuracy_decimal_witness :
    ∃ v, decodeNumLit (renderTok (JTok.num false ['1']
        (some ['2','3','4','5','6','7','8']) none)) = some v ∧
      |v - specRound2 (litVal false ['1'] ['2','3','4','5','6','7','8'])| ≤ 1 / 100 ∧
      (false = false →
        v = specRound2 (litVal false ['1'] ['2','3','4','5','6','7','8'])) :=
  decoded_leaf_accuracy_decimal false ['1'] ['2','3','4','5','6','7','8']
    (by decide) (by decide) (by decide) (by decide) (Or.inr (by decide))

/-- C10: on an upstream response carrying no text, transcribeAudioNote
returns the empty string and checkFacts returns a GroundingResult whose text
is "No information found.", whose query is the input query and whose sources
all have a non-empty uri; neither raises an error, unlike rubric generation
and submission evaluation, which fail on an empty response. -/
theorem empty_response_non_failing_operations :
    transcribeAudioNote none = [] ∧
    transcribeAudioNote (some []) = [] ∧
    (∀ query chunks,
      (checkFacts query none chunks).query = query ∧
      (checkFacts query none chunks).text = noInfoMsg ∧
      (checkFacts query (some []) chunks).text = noInfoMsg ∧
      (∀ s, s ∈ (checkFacts query none chunks).sources → s.uri ≠ [])) ∧
    generateRubricFromText none = .error (.emptyResponse rubricEmptyMsg) ∧
    evaluateSubmission none = .error (.emptyResponse evalEmptyMsg) := by
  refine ⟨rfl, rfl, ?_, rfl, rfl⟩
  intro query chunks
  refine ⟨rfl, rfl, rfl, ?_⟩
  intro s hs
  have hp : (!s.uri.isEmpty) = true := by
    cases chunks with
    | none =>
      simp only [checkFacts] at hs
      have hmem := List.of_mem_filter hs
      exact hmem
    | some cs =>
      simp only [checkFacts] at hs
      have hmem := List.of_mem_filter hs
      exact hmem
  have hie : s.uri.isEmpty = false := by
    cases h : s.uri.isEmpty with
    | false => rfl
    | true => rw [h] at hp; exact absurd hp (by decide)
  exact ne_nil_of_isEmpty_false s.uri hie

theorem empty_response_non_failing_operations_witness :
    transcribeAudioNote none = [] ∧
    (checkFacts ("q".toList) none
        (some [⟨some ⟨some ("u".toList), none⟩⟩])).text = noInfoMsg ∧
    (⟨"u".toList, "Source".toList⟩ : SourceRef).uri ≠ [] := by
  refine ⟨empty_response_non_failing_operations.1, ?_, ?_⟩
  · exact (empty_response_non_failing_operations.2.2.1 ("q".toList)
      (some [⟨some ⟨some ("u".toList), none⟩⟩])).2.1
  · apply (empty_response_non_failing_operations.2.2.1 ("q".toList)
      (some [⟨some ⟨some ("u".toList), none⟩⟩])).2.2.2
    show _ ∈ (checkFacts ("q".toList) none
      (some [⟨some ⟨some ("u".toList), none⟩⟩])).sources
    have hs : (checkFacts ("q".toList) none
        (some [⟨some ⟨some ("u".toList), none⟩⟩])).sources =
        [⟨"u".toList, "Source".toList⟩] := rfl
    rw [hs]
    exact List.mem_singleton.mpr rfl
